import Mathlib

/-!
Verification of the linear-issue-bridge core: identifier grammar, TTL
read-through cache, public-label resolver/applier, HMAC-verified webhook
ingestor, and the paginated backfill scanner.  Definitions are shallow
embeddings of the Go source (package `github`, `cache`, `linearapi`).
-/

namespace LinearBridge

/-! ## Identifier grammar (`ScanIdentifiers`, src/unnamed/part_002)

The Go source matches the regular expression `\b([A-Z]+-\d+)\b` with
`FindAllString` and deduplicates matches preserving first occurrence.
`\b` in Go's RE2 is the ASCII word boundary: a transition between a
character of `[0-9A-Za-z_]` and a non-word character (or text edge).
The scanner below walks the text one character at a time, attempting an
anchored match at every position whose preceding character is not a word
character; because the token alphabet is contained in the word alphabet,
no position strictly inside a match can start another boundary-anchored
match, so the one-character stepping agrees with `FindAllString`'s
leftmost, non-overlapping semantics. -/

def isUpperAZ (c : Char) : Bool := 'A' ≤ c && c ≤ 'Z'

def isLowerAZ (c : Char) : Bool := 'a' ≤ c && c ≤ 'z'

def isDigit09 (c : Char) : Bool := '0' ≤ c && c ≤ '9'

/-- ASCII word character, the `\w`/`\b` alphabet of Go's regexp. -/
def isWordChar (c : Char) : Bool := isUpperAZ c || isLowerAZ c || isDigit09 c || c = '_'

/-- Attempt to match `[A-Z]+-\d+\b` at the head of `l`.  Returns the
matched token and the remaining characters.  The caller is responsible
for the left word boundary. -/
def matchToken (l : List Char) : Option (List Char × List Char) :=
  let us := l.takeWhile isUpperAZ
  match l.dropWhile isUpperAZ with
  | [] => none
  | c1 :: r2 =>
    if us = [] then none else
    if c1 = '-' then
      let ds := r2.takeWhile isDigit09
      if ds = [] then none else
      match r2.dropWhile isDigit09 with
      | [] => some (us ++ '-' :: ds, [])
      | c :: r3 => if isWordChar c then none else some (us ++ '-' :: ds, c :: r3)
    else none

/-- One-character-stepping scan; `prevWord` records whether the character
immediately before the current position is a word character. -/
def scanTokensAux (prevWord : Bool) : List Char → List (List Char)
  | [] => []
  | c :: rest =>
    match (if prevWord then none else matchToken (c :: rest)) with
    | some (tok, _) => tok :: scanTokensAux (isWordChar c) rest
    | none => scanTokensAux (isWordChar c) rest

/-- All (possibly repeated) matches of `\b([A-Z]+-\d+)\b` in `s`, in
order of occurrence: the `FindAllString` step of `ScanIdentifiers`. -/
def findTokens (s : String) : List String :=
  (scanTokensAux false s.toList).map String.mk

/-- First-occurrence deduplication with an explicit seen set, mirroring
the `seen map[string]bool` loop of the Go source. -/
def dedupAux (seen : List String) : List String → List String
  | [] => []
  | x :: xs => if x ∈ seen then dedupAux seen xs else x :: dedupAux (x :: seen) xs

/-- `ScanIdentifiers` extracts all issue identifiers from text
(src/unnamed/part_002). -/
def ScanIdentifiers (s : String) : List String :=
  dedupAux [] (findTokens s)

/-! ### Properties of first-occurrence deduplication -/

theorem dedupAux_cons_of_mem {x : String} {seen : List String} (xs : List String)
    (h : x ∈ seen) : dedupAux seen (x :: xs) = dedupAux seen xs := by
  simp [dedupAux, h]

theorem dedupAux_cons_of_not_mem {x : String} {seen : List String} (xs : List String)
    (h : x ∉ seen) : dedupAux seen (x :: xs) = x :: dedupAux (x :: seen) xs := by
  simp [dedupAux, h]

theorem mem_dedupAux (a : String) (xs : List String) :
    ∀ s, a ∈ dedupAux s xs ↔ a ∈ xs ∧ a ∉ s := by
  induction xs with
  | nil => intro s; simp [dedupAux]
  | cons x xs ih =>
    intro s
    by_cases hx : x ∈ s
    · rw [dedupAux_cons_of_mem xs hx, ih s]
      simp only [List.mem_cons]
      constructor
      · rintro ⟨h1, h2⟩; exact ⟨Or.inr h1, h2⟩
      · rintro ⟨h1 | h1, h2⟩
        · exact absurd (h1 ▸ hx) h2
        · exact ⟨h1, h2⟩
    · rw [dedupAux_cons_of_not_mem xs hx]
      simp only [List.mem_cons, ih (x :: s)]
      constructor
      · rintro (rfl | ⟨h1, h2⟩)
        · exact ⟨Or.inl rfl, hx⟩
        · exact ⟨Or.inr h1, fun hs => h2 (Or.inr hs)⟩
      · rintro ⟨rfl | h1, h2⟩
        · exact Or.inl rfl
        · by_cases hax : a = x
          · exact Or.inl hax
          · exact Or.inr ⟨h1, fun hc => hc.elim hax h2⟩

theorem dedupAux_congr (xs : List String) :
    ∀ s₁ s₂, (∀ a, a ∈ s₁ ↔ a ∈ s₂) → dedupAux s₁ xs = dedupAux s₂ xs := by
  induction xs with
  | nil => intro s₁ s₂ _; rfl
  | cons x xs ih =>
    intro s₁ s₂ h
    by_cases hx : x ∈ s₁
    · rw [dedupAux_cons_of_mem xs hx, dedupAux_cons_of_mem xs ((h x).mp hx), ih _ _ h]
    · rw [dedupAux_cons_of_not_mem xs hx,
        dedupAux_cons_of_not_mem xs (fun hc => hx ((h x).mpr hc))]
      congr 1
      apply ih
      intro a
      simp only [List.mem_cons, h a]

theorem dedupAux_append (xs ys : List String) :
    ∀ s, dedupAux s (xs ++ ys) = dedupAux s xs ++ dedupAux (xs ++ s) ys := by
  induction xs with
  | nil => intro s; rfl
  | cons x xs ih =>
    intro s
    by_cases hx : x ∈ s
    · rw [List.cons_append, dedupAux_cons_of_mem _ hx, dedupAux_cons_of_mem xs hx, ih s]
      congr 1
      apply dedupAux_congr
      intro a
      simp only [List.mem_append, List.cons_append, List.mem_cons]
      constructor
      · tauto
      · rintro (rfl | h | h)
        · exact Or.inr hx
        · exact Or.inl h
        · exact Or.inr h
    · rw [List.cons_append, dedupAux_cons_of_not_mem _ hx, dedupAux_cons_of_not_mem xs hx,
        ih (x :: s), List.cons_append]
      congr 2
      apply dedupAux_congr
      intro a
      simp only [List.mem_append, List.cons_append, List.mem_cons]
      tauto

theorem dedupAux_cons_not_mem {a : String} (xs : List String) (ha : a ∉ xs) :
    ∀ s, dedupAux (a :: s) xs = dedupAux s xs := by
  induction xs with
  | nil => intro s; rfl
  | cons x xs ih =>
    intro s
    have hax : x ≠ a := fun h => ha (h ▸ List.mem_cons_self x xs)
    have ha' : a ∉ xs := fun h => ha (List.mem_cons_of_mem _ h)
    by_cases hx : x ∈ s
    · rw [dedupAux_cons_of_mem xs (List.mem_cons_of_mem _ hx), dedupAux_cons_of_mem xs hx,
        ih ha' s]
    · have hx' : x ∉ a :: s := by simp [hax, hx]
      rw [dedupAux_cons_of_not_mem xs hx', dedupAux_cons_of_not_mem xs hx]
      congr 1
      rw [dedupAux_congr xs (x :: a :: s) (a :: x :: s) (by intro b; simp; tauto), ih ha' _]

theorem filter_dedupAux (p : String → Bool) (xs : List String) :
    ∀ s, (dedupAux s xs).filter p = dedupAux s (xs.filter p) := by
  induction xs with
  | nil => intro s; rfl
  | cons x xs ih =>
    intro s
    by_cases hx : x ∈ s
    · by_cases hp : p x
      · rw [dedupAux_cons_of_mem xs hx, List.filter_cons, if_pos hp,
          dedupAux_cons_of_mem _ hx, ih s]
      · rw [dedupAux_cons_of_mem xs hx, List.filter_cons, if_neg hp, ih s]
    · by_cases hp : p x
      · rw [dedupAux_cons_of_not_mem xs hx, List.filter_cons, if_pos hp, List.filter_cons,
          if_pos hp, dedupAux_cons_of_not_mem _ hx, ih (x :: s)]
      · have hxf : x ∉ xs.filter p := fun h => hp (List.of_mem_filter h)
        rw [dedupAux_cons_of_not_mem xs hx, List.filter_cons, if_neg hp, List.filter_cons,
          if_neg hp, ih (x :: s), dedupAux_cons_not_mem _ hxf s]

theorem dedupAux_dedupAux (xs : List String) :
    ∀ inner s, (∀ a, a ∈ inner → a ∈ s) →
      dedupAux s (dedupAux inner xs) = dedupAux s xs := by
  induction xs with
  | nil => intro inner s _; rfl
  | cons x xs ih =>
    intro inner s h
    by_cases hxi : x ∈ inner
    · rw [dedupAux_cons_of_mem xs hxi, dedupAux_cons_of_mem xs (h x hxi), ih _ _ h]
    · rw [dedupAux_cons_of_not_mem xs hxi]
      by_cases hxs : x ∈ s
      · rw [dedupAux_cons_of_mem _ hxs, dedupAux_cons_of_mem xs hxs]
        apply ih
        intro a ha
        rcases List.mem_cons.mp ha with rfl | ha
        · exact hxs
        · exact h a ha
      · rw [dedupAux_cons_of_not_mem _ hxs, dedupAux_cons_of_not_mem xs hxs]
        congr 1
        apply ih
        intro a ha
        rcases List.mem_cons.mp ha with rfl | ha
        · exact List.mem_cons_self a _
        · exact List.mem_cons_of_mem _ (h a ha)

theorem dedupAux_sublist (xs : List String) : ∀ s, (dedupAux s xs).Sublist xs := by
  induction xs with
  | nil => intro s; exact List.Sublist.refl []
  | cons x xs ih =>
    intro s
    by_cases hx : x ∈ s
    · rw [dedupAux_cons_of_mem xs hx]
      exact (ih s).cons x
    · rw [dedupAux_cons_of_not_mem xs hx]
      exact (ih (x :: s)).cons₂ x

theorem nodup_dedupAux (xs : List String) : ∀ s, (dedupAux s xs).Nodup := by
  induction xs with
  | nil => intro s; exact List.nodup_nil
  | cons x xs ih =>
    intro s
    by_cases hx : x ∈ s
    · rw [dedupAux_cons_of_mem xs hx]; exact ih s
    · rw [dedupAux_cons_of_not_mem xs hx]
      refine List.nodup_cons.mpr ⟨fun hmem => ?_, ih (x :: s)⟩
      exact ((mem_dedupAux x xs (x :: s)).mp hmem).2 (List.mem_cons_self x s)

/-! ### takeWhile/dropWhile helpers -/

theorem takeWhile_all_nil {p : Char → Bool} :
    ∀ us : List Char, (∀ c ∈ us, p c = true) →
      us.takeWhile p = us ∧ us.dropWhile p = [] := by
  intro us
  induction us with
  | nil => intro _; exact ⟨rfl, rfl⟩
  | cons u us ih =>
    intro hall
    have hu : p u = true := hall u (List.mem_cons_self u us)
    have ih' := ih (fun c hc => hall c (List.mem_cons_of_mem _ hc))
    simp [List.takeWhile_cons, List.dropWhile_cons, hu, ih'.1, ih'.2]

theorem takeWhile_all_append {p : Char → Bool} {x : Char} (rest : List Char)
    (hx : p x = false) :
    ∀ us : List Char, (∀ c ∈ us, p c = true) →
      (us ++ x :: rest).takeWhile p = us ∧ (us ++ x :: rest).dropWhile p = x :: rest := by
  intro us
  induction us with
  | nil => intro _; simp [List.takeWhile_cons, List.dropWhile_cons, hx]
  | cons u us ih =>
    intro hall
    have hu : p u = true := hall u (List.mem_cons_self u us)
    have ih' := ih (fun c hc => hall c (List.mem_cons_of_mem _ hc))
    simp [List.takeWhile_cons, List.dropWhile_cons, hu, ih'.1, ih'.2]

theorem takeWhile_append_sep {p : Char → Bool} (hnl : p '\n' = false) (b : List Char) :
    ∀ x : List Char, (x ++ '\n' :: b).takeWhile p = x.takeWhile p ∧
      (x ++ '\n' :: b).dropWhile p = x.dropWhile p ++ '\n' :: b := by
  intro x
  induction x with
  | nil => simp [List.takeWhile_cons, List.dropWhile_cons, hnl]
  | cons c x ih =>
    cases hc : p c with
    | true => simp [List.takeWhile_cons, List.dropWhile_cons, hc, ih.1, ih.2]
    | false => simp [List.takeWhile_cons, List.dropWhile_cons, hc]

/-! ### Declarative characterisation of the grammar -/

/-- The shape `[A-Z]+-[0-9]+` of an identifier token. -/
def isIdentShape (t : List Char) : Prop :=
  ∃ us ds, t = us ++ '-' :: ds ∧ us ≠ [] ∧ ds ≠ [] ∧
    (∀ c ∈ us, isUpperAZ c = true) ∧ (∀ c ∈ ds, isDigit09 c = true)

/-- The character just before the occurrence is not a word character
(`prev` stands in for the character preceding the scanned fragment). -/
def lastNonWord (prev : Bool) (a : List Char) : Prop :=
  match a.getLast? with
  | none => prev = false
  | some c => isWordChar c = false

/-- The character just after the occurrence is not a word character. -/
def headNonWord (b : List Char) : Prop :=
  match b.head? with
  | none => True
  | some c => isWordChar c = false

/-- `t` occurs in `l` as a whole word (word-boundary on both sides). -/
def tokenOccursAt (prev : Bool) (l t : List Char) : Prop :=
  ∃ a b, l = a ++ t ++ b ∧ lastNonWord prev a ∧ headNonWord b

theorem mem_takeWhile_prop {p : Char → Bool} :
    ∀ l : List Char, ∀ c ∈ l.takeWhile p, p c = true := by
  intro l
  induction l with
  | nil => intro c hc; cases hc
  | cons x xs ih =>
    intro c hc
    cases hx : p x with
    | true =>
      rw [List.takeWhile_cons, if_pos hx] at hc
      rcases List.mem_cons.mp hc with rfl | hc
      · exact hx
      · exact ih c hc
    | false =>
      rw [List.takeWhile_cons, if_neg (by simp [hx])] at hc
      cases hc

theorem matchToken_some {l t r : List Char} (h : matchToken l = some (t, r)) :
    isIdentShape t ∧ l = t ++ r ∧ headNonWord r := by
  unfold matchToken at h
  rcases hdw : l.dropWhile isUpperAZ with _ | ⟨c1, r2⟩ <;> rw [hdw] at h <;> dsimp only at h
  · cases h
  · by_cases h0 : l.takeWhile isUpperAZ = []
    · rw [if_pos h0] at h; cases h
    · rw [if_neg h0] at h
      by_cases h1 : c1 = '-'
      · rw [if_pos h1] at h
        subst h1
        by_cases hds : r2.takeWhile isDigit09 = []
        · rw [if_pos hds] at h; cases h
        · rw [if_neg hds] at h
          have hl : l = l.takeWhile isUpperAZ ++ '-' :: r2 := by
            rw [← hdw, List.takeWhile_append_dropWhile]
          have hr2 : r2 = r2.takeWhile isDigit09 ++ r2.dropWhile isDigit09 := by
            rw [List.takeWhile_append_dropWhile]
          rcases hdw2 : r2.dropWhile isDigit09 with _ | ⟨c, r3⟩ <;> rw [hdw2] at h hr2 <;>
            dsimp only at h
          · injection h with h'
            injection h' with ht hr
            subst ht; subst hr
            refine ⟨⟨_, _, rfl, h0, hds, mem_takeWhile_prop l, mem_takeWhile_prop r2⟩, ?_, trivial⟩
            refine hl.trans ?_
            rw [List.append_nil]
            exact congrArg (fun z => List.takeWhile isUpperAZ l ++ '-' :: z)
              (by simpa using hr2)
          · by_cases hw : isWordChar c
            · rw [if_pos hw] at h; cases h
            · rw [if_neg hw] at h
              injection h with h'
              injection h' with ht hr
              subst ht; subst hr
              refine ⟨⟨_, _, rfl, h0, hds, mem_takeWhile_prop l, mem_takeWhile_prop r2⟩, ?_, ?_⟩
              · refine hl.trans ?_
                rw [List.append_assoc, List.cons_append]
                exact congrArg (fun z => List.takeWhile isUpperAZ l ++ '-' :: z) hr2
              · simpa [headNonWord] using Bool.eq_false_iff.mpr hw
      · rw [if_neg h1] at h; cases h

theorem matchToken_of_shape {us ds : List Char} (b : List Char)
    (hus : us ≠ []) (hds : ds ≠ []) (hu : ∀ c ∈ us, isUpperAZ c = true)
    (hd : ∀ c ∈ ds, isDigit09 c = true) (hb : headNonWord b) :
    matchToken (us ++ '-' :: (ds ++ b)) = some (us ++ '-' :: ds, b) := by
  have hdashU : isUpperAZ '-' = false := by decide
  have h1 := takeWhile_all_append (ds ++ b) hdashU us hu
  unfold matchToken
  rw [h1.1, h1.2]
  dsimp only
  rw [if_neg hus, if_pos rfl]
  cases b with
  | nil =>
    have h2 := takeWhile_all_nil ds hd
    rw [List.append_nil, h2.1, h2.2]
    dsimp only
    rw [if_neg hds]
  | cons c b' =>
    have hcw : isWordChar c = false := by
      simpa [headNonWord] using hb
    have hcd : isDigit09 c = false := by
      cases hcd : isDigit09 c
      · rfl
      · have hw : isWordChar c = true := by simp [isWordChar, hcd]
        exact absurd hw (by simp [hcw])
    have h2 := takeWhile_all_append b' hcd ds hd
    rw [h2.1, h2.2]
    dsimp only
    rw [if_neg hds, if_neg (by simp [hcw])]

theorem matchToken_not_upper {c : Char} (l : List Char) (hc : isUpperAZ c = false) :
    matchToken (c :: l) = none := by
  have h1 : (c :: l).takeWhile isUpperAZ = [] := by
    simp [List.takeWhile_cons, hc]
  have h2 : (c :: l).dropWhile isUpperAZ = c :: l := by
    simp [List.dropWhile_cons, hc]
  unfold matchToken
  rw [h1, h2]
  dsimp only
  rw [if_pos rfl]

theorem matchToken_append_sep (b' : List Char) (x : List Char) :
    matchToken (x ++ '\n' :: b') =
      match matchToken x with
      | some (t, r) => some (t, r ++ '\n' :: b')
      | none => none := by
  have hU : isUpperAZ '\n' = false := by decide
  have hD : isDigit09 '\n' = false := by decide
  have h1 := takeWhile_append_sep hU b' x
  unfold matchToken
  rw [h1.1, h1.2]
  rcases hdw : x.dropWhile isUpperAZ with _ | ⟨c1, r2⟩
  · rw [List.nil_append]
    dsimp only
    by_cases h0 : x.takeWhile isUpperAZ = []
    · simp only [if_pos h0]
    · simp only [if_neg h0, if_neg (by decide : ¬('\n' = '-'))]
  · rw [List.cons_append]
    dsimp only
    by_cases h0 : x.takeWhile isUpperAZ = []
    · simp only [if_pos h0]
    · simp only [if_neg h0]
      by_cases h1' : c1 = '-'
      · simp only [if_pos h1']
        have h2 := takeWhile_append_sep hD b' r2
        rw [h2.1, h2.2]
        by_cases hds : r2.takeWhile isDigit09 = []
        · simp only [if_pos hds]
        · simp only [if_neg hds]
          rcases hdw2 : r2.dropWhile isDigit09 with _ | ⟨c, r3⟩
          · rw [List.nil_append]
            dsimp only
            rw [if_neg (by decide : ¬(isWordChar '\x0a' = true)), List.nil_append]
          · rw [List.cons_append]
            dsimp only
            by_cases hw : isWordChar c
            · simp only [if_pos hw]
            · simp only [if_neg hw, List.cons_append]
      · simp only [if_neg h1']

theorem scanTokensAux_nil (prev : Bool) : scanTokensAux prev [] = [] := rfl

theorem scanTokensAux_cons_true (c : Char) (rest : List Char) :
    scanTokensAux true (c :: rest) = scanTokensAux (isWordChar c) rest := rfl

theorem scanTokensAux_cons (prev : Bool) (c : Char) (rest : List Char) :
    scanTokensAux prev (c :: rest) =
      match (if prev then none else matchToken (c :: rest)) with
      | some (tok, _) => tok :: scanTokensAux (isWordChar c) rest
      | none => scanTokensAux (isWordChar c) rest := by
  conv_lhs => unfold scanTokensAux

theorem scanTokensAux_cons_false_none {c : Char} {rest : List Char}
    (hm : matchToken (c :: rest) = none) :
    scanTokensAux false (c :: rest) = scanTokensAux (isWordChar c) rest := by
  rw [scanTokensAux_cons, hm]
  exact rfl

theorem scanTokensAux_cons_false_some {c : Char} {rest t r : List Char}
    (hm : matchToken (c :: rest) = some (t, r)) :
    scanTokensAux false (c :: rest) = t :: scanTokensAux (isWordChar c) rest := by
  rw [scanTokensAux_cons, hm]
  exact rfl

theorem scanTokensAux_tail_mem {c : Char} {rest t : List Char} (prev : Bool)
    (h : t ∈ scanTokensAux (isWordChar c) rest) : t ∈ scanTokensAux prev (c :: rest) := by
  cases prev
  · rcases hm : matchToken (c :: rest) with _ | ⟨t0, r⟩
    · rw [scanTokensAux_cons_false_none hm]; exact h
    · rw [scanTokensAux_cons_false_some hm]; exact List.mem_cons_of_mem _ h
  · rw [scanTokensAux_cons_true]; exact h

/-- Scanning across a newline separator decomposes: `'\n'` is not a word
character, cannot occur in a token, and resets the boundary state. -/
theorem scanTokensAux_append_sep (b : List Char) :
    ∀ (a : List Char) (prev : Bool), scanTokensAux prev (a ++ '\n' :: b) =
      scanTokensAux prev a ++ scanTokensAux false b := by
  intro a
  induction a with
  | nil =>
    intro prev
    rw [List.nil_append, scanTokensAux_nil, List.nil_append]
    have hmt : matchToken ('\n' :: b) = none := matchToken_not_upper b (by decide)
    have hw : isWordChar '\n' = false := by decide
    cases prev
    · rw [scanTokensAux_cons_false_none hmt, hw]
    · rw [scanTokensAux_cons_true, hw]
  | cons c a ih =>
    intro prev
    rw [List.cons_append]
    cases prev
    · rcases hm : matchToken (c :: a) with _ | ⟨t, r⟩
      · have hm' : matchToken (c :: (a ++ '\n' :: b)) = none := by
          have hsep := matchToken_append_sep b (c :: a)
          rw [List.cons_append] at hsep
          rw [hsep, hm]
        rw [scanTokensAux_cons_false_none hm', scanTokensAux_cons_false_none hm, ih]
      · have hm' : matchToken (c :: (a ++ '\n' :: b)) = some (t, r ++ '\n' :: b) := by
          have hsep := matchToken_append_sep b (c :: a)
          rw [List.cons_append] at hsep
          rw [hsep, hm]
        rw [scanTokensAux_cons_false_some hm', scanTokensAux_cons_false_some hm, ih,
          List.cons_append]
    · rw [scanTokensAux_cons_true, scanTokensAux_cons_true, ih]

theorem lastNonWord_cons {prev : Bool} {c : Char} {a : List Char}
    (h : lastNonWord (isWordChar c) a) : lastNonWord prev (c :: a) := by
  cases a with
  | nil =>
    have hc : isWordChar c = false := h
    exact hc
  | cons x xs =>
    unfold lastNonWord at h ⊢
    rwa [List.getLast?_cons_cons]

theorem lastNonWord_cons_inv {prev : Bool} {c : Char} {a : List Char}
    (h : lastNonWord prev (c :: a)) : lastNonWord (isWordChar c) a := by
  cases a with
  | nil =>
    have hc : isWordChar c = false := h
    exact hc
  | cons x xs =>
    unfold lastNonWord at h ⊢
    rwa [List.getLast?_cons_cons] at h

theorem tokenOccursAt_cons {prev : Bool} {c : Char} {rest t : List Char}
    (h : tokenOccursAt (isWordChar c) rest t) : tokenOccursAt prev (c :: rest) t := by
  rcases h with ⟨a, b, heq, hlast, hhead⟩
  refine ⟨c :: a, b, ?_, lastNonWord_cons hlast, hhead⟩
  simp [heq]

/-- Soundness: every token produced by the scanner has the identifier
shape and occurs in the text as a whole word. -/
theorem scan_sound : ∀ (l : List Char) (prev : Bool) (t : List Char),
    t ∈ scanTokensAux prev l → isIdentShape t ∧ tokenOccursAt prev l t := by
  intro l
  induction l with
  | nil =>
    intro prev t h
    rw [scanTokensAux_nil] at h
    cases h
  | cons c rest ih =>
    intro prev t h
    cases prev
    · rcases hm : matchToken (c :: rest) with _ | ⟨t0, r⟩
      · rw [scanTokensAux_cons_false_none hm] at h
        obtain ⟨hshape, hocc⟩ := ih (isWordChar c) t h
        exact ⟨hshape, tokenOccursAt_cons hocc⟩
      · rw [scanTokensAux_cons_false_some hm] at h
        rcases List.mem_cons.mp h with rfl | h'
        · obtain ⟨hshape, heq, hhead⟩ := matchToken_some hm
          refine ⟨hshape, [], r, by simpa using heq, rfl, hhead⟩
        · obtain ⟨hshape, hocc⟩ := ih (isWordChar c) t h'
          exact ⟨hshape, tokenOccursAt_cons hocc⟩
    · rw [scanTokensAux_cons_true] at h
      obtain ⟨hshape, hocc⟩ := ih (isWordChar c) t h
      exact ⟨hshape, tokenOccursAt_cons hocc⟩

/-- Completeness: every whole-word occurrence of an identifier-shaped
token is found by the scanner. -/
theorem scan_complete : ∀ (l : List Char) (prev : Bool) (t : List Char),
    isIdentShape t → tokenOccursAt prev l t → t ∈ scanTokensAux prev l := by
  intro l
  induction l with
  | nil =>
    intro prev t hshape hocc
    rcases hocc with ⟨a, b, heq, _, _⟩
    rcases hshape with ⟨us, ds, rfl, hus, hds, _, _⟩
    have hlen := congrArg List.length heq
    simp [List.length_append] at hlen
    omega
  | cons c rest ih =>
    intro prev t hshape hocc
    rcases hocc with ⟨a, b, heq, hlast, hhead⟩
    cases a with
    | nil =>
      have hprev : prev = false := hlast
      subst hprev
      rcases hshape with ⟨us, ds, rfl, hus, hds, hu, hd⟩
      have heq' : c :: rest = us ++ '-' :: (ds ++ b) := by
        simpa [List.append_assoc] using heq
      have hm : matchToken (c :: rest) = some (us ++ '-' :: ds, b) := by
        rw [heq']
        exact matchToken_of_shape b hus hds hu hd hhead
      rw [scanTokensAux_cons_false_some hm]
      exact List.mem_cons_self _ _
    | cons c' a' =>
      simp only [List.cons_append] at heq
      injection heq with h1 h2
      subst h1
      apply scanTokensAux_tail_mem
      apply ih (isWordChar c) t hshape
      exact ⟨a', b, by simp [h2, List.append_assoc], lastNonWord_cons_inv hlast, hhead⟩

theorem scan_join : ∀ texts : List String,
    scanTokensAux false ((texts.map (fun t => t.toList ++ ['\n'])).flatten) =
      (texts.map (fun t => scanTokensAux false t.toList)).flatten := by
  intro texts
  induction texts with
  | nil => rfl
  | cons t ts ih =>
    simp only [List.map_cons, List.flatten_cons]
    rw [List.append_assoc, List.singleton_append, scanTokensAux_append_sep, ih]

/-! ## Data model (src/internal/linearapi/types.go) -/

structure State where
  name : String
  color : String
  type : String
deriving DecidableEq

structure Label where
  id : String
  name : String
  color : String
deriving DecidableEq

structure Attachment where
  url : String
  title : String
deriving DecidableEq

structure Issue where
  id : String
  identifier : String
  title : String
  description : String
  state : State
  priority : Int
  labels : List Label
  attachments : List Attachment
  url : String
  createdAt : Nat
  updatedAt : Nat
deriving DecidableEq

/-- `Issue.HasLabel` scans the label list for a name match. -/
def Issue.HasLabel (i : Issue) (name : String) : Bool :=
  i.labels.any (fun l => l.name == name)

/-! ## Read-through TTL cache (src/internal/cache/cache.go)

The fetcher is an interface; one `Get` performs at most one fetch, so a
single call is modelled by passing the outcome that the underlying
`FetchIssue` would produce (`Except.error` for a fetch error, `Except.ok
none` for "not found", `Except.ok (some i)` for a hit).  Timestamps are
abstract `Nat` instants; `now - e.fetchedAt < ttl` embeds
`time.Since(e.fetchedAt) < c.ttl`.  The third result component counts
calls made to the underlying fetcher during this `Get`. -/

structure CacheEntry where
  issue : Option Issue
  fetchedAt : Nat
deriving DecidableEq

def cacheInsert (entries : String → Option CacheEntry) (key : String) (e : CacheEntry) :
    String → Option CacheEntry :=
  fun k => if k = key then some e else entries k

/-- The miss/stale path of `Cache.Get`: fetch, and on success overwrite
the entry unconditionally with the current timestamp. -/
def cacheRefresh (entries : String → Option CacheEntry) (now : Nat)
    (fetchRes : Except String (Option Issue)) (key : String) :
    Except String (Option Issue) × (String → Option CacheEntry) × Nat :=
  match fetchRes with
  | Except.error e => (Except.error e, entries, 1)
  | Except.ok issue => (Except.ok issue, cacheInsert entries key ⟨issue, now⟩, 1)

/-- `Cache.Get` (src/internal/cache/cache.go, lines 38-60). -/
def cacheGet (entries : String → Option CacheEntry) (ttl now : Nat)
    (fetchRes : Except String (Option Issue)) (key : String) :
    Except String (Option Issue) × (String → Option CacheEntry) × Nat :=
  match entries key with
  | some e =>
    if now - e.fetchedAt < ttl then (Except.ok e.issue, entries, 0)
    else cacheRefresh entries now fetchRes key
  | none => cacheRefresh entries now fetchRes key

/-! ## Public labeler (src/unnamed/part_000)

`sync.Once` state is modelled by the `labelDone` flag together with the
memoised `labelID`/`labelErr` fields; `FetchLabelByName` outcomes are
passed in as `Except.ok id` (where `id = ""` encodes the "no label
found, nil error" result of the Go client) or `Except.error e`. -/

structure PublicLabeler where
  teamKey : String
  labelDone : Bool
  labelID : String
  labelErr : Option String
deriving DecidableEq

def NewPublicLabeler (teamKey : String) : PublicLabeler :=
  ⟨teamKey, false, "", none⟩

/-- `PublicLabeler.resolveLabelID` (src/unnamed/part_000, lines 54-62).
Returns the `(labelID, labelErr)` pair, the successor state, and the
number of `FetchLabelByName` calls made (0 or 1). -/
def resolveLabelID (l : PublicLabeler) (fetchRes : Except String String) :
    (String × Option String) × PublicLabeler × Nat :=
  if l.labelDone then ((l.labelID, l.labelErr), l, 0)
  else
    let p : String × Option String :=
      match fetchRes with
      | Except.ok id =>
        if id = "" then ("", some ("label \"public\" not found in team " ++ l.teamKey))
        else (id, none)
      | Except.error e => ("", some e)
    (p, ⟨l.teamKey, true, p.1, p.2⟩, 1)

/-- Iterated resolution: a sequence of `resolveLabelID` calls against
successive fetch outcomes, accumulating results and total fetch count. -/
def resolveMany (l : PublicLabeler) :
    List (Except String String) → List (String × Option String) × PublicLabeler × Nat
  | [] => ([], l, 0)
  | f :: fs =>
    let r := resolveLabelID l f
    let rest := resolveMany r.2.1 fs
    (r.1 :: rest.1, rest.2.1, r.2.2 + rest.2.2)

/-- Remote calls made by `EnsurePublicLabel`, in order. -/
inductive ApiCall where
  | fetchIssue
  | fetchLabel
  | addLabel
deriving DecidableEq

/-- `PublicLabeler.EnsurePublicLabel` (src/unnamed/part_000, lines 26-52).
`fetchIssueRes` is the outcome of the live `client.FetchIssue` call (the
labeler queries the client directly, not through the cache);
`addLabelRes` maps `(issueID, labelID)` to the `AddLabel` outcome.  The
trace lists the remote calls in execution order. -/
def EnsurePublicLabel (l : PublicLabeler) (fetchIssueRes : Except String (Option Issue))
    (fetchLabelRes : Except String String)
    (addLabelRes : String → String → Except String Unit) (identifier : String) :
    Except String Unit × PublicLabeler × List ApiCall :=
  match fetchIssueRes with
  | Except.error e =>
    (Except.error ("fetch issue " ++ identifier ++ ": " ++ e), l, [ApiCall.fetchIssue])
  | Except.ok none => (Except.ok (), l, [ApiCall.fetchIssue])
  | Except.ok (some issue) =>
    if issue.HasLabel "public" then (Except.ok (), l, [ApiCall.fetchIssue])
    else
      let r := resolveLabelID l fetchLabelRes
      let resolveCalls : List ApiCall := if r.2.2 = 0 then [] else [ApiCall.fetchLabel]
      match r.1.2 with
      | some e => (Except.error e, r.2.1, ApiCall.fetchIssue :: resolveCalls)
      | none =>
        match addLabelRes issue.id r.1.1 with
        | Except.error e =>
          (Except.error ("add label to " ++ identifier ++ ": " ++ e), r.2.1,
            ApiCall.fetchIssue :: resolveCalls ++ [ApiCall.addLabel])
        | Except.ok _ =>
          (Except.ok (), r.2.1,
            ApiCall.fetchIssue :: resolveCalls ++ [ApiCall.addLabel])

/-! ## Identifier parsing (src/internal/linearapi/types.go, `ParseIdentifier`)

`strings.SplitN(identifier, "-", 2)` splits at the first `'-'`;
`strconv.Atoi` parses an optional single sign followed by one or more
decimal digits, rejecting out-of-range values (64-bit `int`). -/

/-- Split at the first `'-'`: `none` when no dash occurs (`SplitN`
returned a single part). -/
def splitOnceDash : List Char → Option (List Char × List Char)
  | [] => none
  | c :: rest =>
    if c = '-' then some ([], rest)
    else
      match splitOnceDash rest with
      | some (pre2, post) => some (c :: pre2, post)
      | none => none

def digitsVal (acc : Nat) : List Char → Option Nat
  | [] => some acc
  | c :: rest => if isDigit09 c then digitsVal (acc * 10 + (c.toNat - 48)) rest else none

def digitsToNat (cs : List Char) : Option Nat :=
  match cs with
  | [] => none
  | _ => digitsVal 0 cs

/-- `strconv.Atoi`: optional sign, one or more digits, 64-bit range. -/
def goAtoi (cs : List Char) : Option Int :=
  let core : Bool × List Char :=
    match cs with
    | '+' :: rest => (false, rest)
    | '-' :: rest => (true, rest)
    | _ => (false, cs)
  match digitsToNat core.2 with
  | none => none
  | some n =>
    let v : Int := if core.1 then -(n : Int) else (n : Int)
    if -(9223372036854775808 : Int) ≤ v then
      if v ≤ (9223372036854775807 : Int) then some v else none
    else none

instance {e a : Type} [DecidableEq e] [DecidableEq a] : DecidableEq (Except e a)
  | Except.error x, Except.error y =>
    if h : x = y then isTrue (congrArg Except.error h)
    else isFalse (fun hc => h (by injection hc))
  | Except.error _, Except.ok _ => isFalse (fun hc => Except.noConfusion hc)
  | Except.ok _, Except.error _ => isFalse (fun hc => Except.noConfusion hc)
  | Except.ok x, Except.ok y =>
    if h : x = y then isTrue (congrArg Except.ok h)
    else isFalse (fun hc => h (by injection hc))

/-- `ParseIdentifier` (src/internal/linearapi/types.go, lines 640-651). -/
def ParseIdentifier (s : String) : Except String (String × Int) :=
  match splitOnceDash s.toList with
  | none => Except.error ("invalid identifier format: " ++ s)
  | some (pre, post) =>
    match goAtoi post with
    | none => Except.error ("invalid issue number in " ++ s)
    | some n => Except.ok (String.mk pre, n)

/-! ## Claim C1: cache Get behaviour -/

/-- C1.  For every key: a fresh cache entry is served with zero fetcher
calls; a miss or stale entry triggers exactly one fetcher call; a fetch
error is returned and leaves the entry map unchanged; a fetch success
(including an absent result) unconditionally overwrites the entry with
the fetched value and the current timestamp, and a second `Get` within
the TTL window then performs zero additional fetcher calls. -/
theorem cache_get_spec (entries : String → Option CacheEntry) (ttl now : Nat)
    (fetchRes : Except String (Option Issue)) (key : String) :
    (∀ e, entries key = some e → now - e.fetchedAt < ttl →
      cacheGet entries ttl now fetchRes key = (Except.ok e.issue, entries, 0)) ∧
    ((entries key = none ∨ ∀ e, entries key = some e → ¬(now - e.fetchedAt < ttl)) →
      (cacheGet entries ttl now fetchRes key).2.2 = 1) ∧
    (∀ err, fetchRes = Except.error err →
      (entries key = none ∨ ∀ e, entries key = some e → ¬(now - e.fetchedAt < ttl)) →
      cacheGet entries ttl now fetchRes key = (Except.error err, entries, 1)) ∧
    (∀ v, fetchRes = Except.ok v →
      (entries key = none ∨ ∀ e, entries key = some e → ¬(now - e.fetchedAt < ttl)) →
      cacheGet entries ttl now fetchRes key =
          (Except.ok v, cacheInsert entries key ⟨v, now⟩, 1) ∧
        cacheInsert entries key ⟨v, now⟩ key = some ⟨v, now⟩ ∧
        (∀ k, k ≠ key → cacheInsert entries key ⟨v, now⟩ k = entries k) ∧
        (∀ now' fetchRes', now' - now < ttl →
          cacheGet (cacheInsert entries key ⟨v, now⟩) ttl now' fetchRes' key =
            (Except.ok v, cacheInsert entries key ⟨v, now⟩, 0))) := by
  have hstale : ∀ (fr : Except String (Option Issue)),
      (entries key = none ∨ ∀ e, entries key = some e → ¬(now - e.fetchedAt < ttl)) →
      cacheGet entries ttl now fr key = cacheRefresh entries now fr key := by
    intro fr h
    rcases hk : entries key with _ | e
    · simp [cacheGet, hk]
    · rcases h with h | h
      · rw [hk] at h; cases h
      · simp [cacheGet, hk, h e hk]
  refine ⟨?_, ?_, ?_, ?_⟩
  · intro e hk hfresh
    simp [cacheGet, hk, hfresh]
  · intro h
    rw [hstale fetchRes h]
    rcases fetchRes with e | v <;> simp [cacheRefresh]
  · intro err herr h
    rw [hstale fetchRes h, herr]
    simp [cacheRefresh]
  · intro v hv h
    rw [hstale fetchRes h, hv]
    refine ⟨by simp [cacheRefresh], by simp [cacheInsert], ?_, ?_⟩
    · intro k hk
      simp [cacheInsert, hk]
    · intro now' fetchRes' hfresh
      simp [cacheGet, cacheInsert, hfresh]

/-- Witness for C1: concrete run on an empty cache (store then replay an
absent result without a second fetch). -/
theorem cache_get_spec_witness :
    cacheGet (fun _ => none) 10 5 (Except.ok none) "MIR-9" =
        (Except.ok none, cacheInsert (fun _ => none) "MIR-9" ⟨none, 5⟩, 1) ∧
      cacheGet (cacheInsert (fun _ => none) "MIR-9" ⟨none, 5⟩) 10 7
          (Except.error "boom") "MIR-9" =
        (Except.ok none, cacheInsert (fun _ => none) "MIR-9" ⟨none, 5⟩, 0) := by
  have h := (cache_get_spec (fun _ => none) 10 5 (Except.ok none) "MIR-9").2.2.2 none rfl
    (Or.inl rfl)
  exact ⟨h.1, h.2.2.2 7 (Except.error "boom") (by decide)⟩

/-! ## Claim C2: label resolution happens at most once per instance -/

theorem resolveMany_done : ∀ (fs : List (Except String String)) (l : PublicLabeler),
    l.labelDone = true →
    resolveMany l fs = (fs.map (fun _ => (l.labelID, l.labelErr)), l, 0) := by
  intro fs
  induction fs with
  | nil => intro l _; rfl
  | cons f fs ih =>
    intro l h
    simp [resolveMany, resolveLabelID, h, ih l h]

/-- C2.  A completed resolution is replayed with zero fetches; a fresh
resolution performs exactly one fetch and permanently stores its
`(labelID, error)` outcome — fetch errors and the empty-label-ID success
(missing label) both become permanently cached errors — and any sequence
of further resolutions on a fresh resolver performs exactly one
underlying fetch in total, every call observing the first outcome. -/
theorem resolver_once_spec (l : PublicLabeler) (f : Except String String) :
    (l.labelDone = true → resolveLabelID l f = ((l.labelID, l.labelErr), l, 0)) ∧
    (l.labelDone = false →
      (resolveLabelID l f).2.2 = 1 ∧
      (resolveLabelID l f).2.1 =
        ⟨l.teamKey, true, (resolveLabelID l f).1.1, (resolveLabelID l f).1.2⟩) ∧
    (∀ e, f = Except.error e → l.labelDone = false →
      (resolveLabelID l f).1 = ("", some e)) ∧
    (f = Except.ok "" → l.labelDone = false →
      (resolveLabelID l f).1 =
        ("", some ("label \"public\" not found in team " ++ l.teamKey))) ∧
    (∀ id, f = Except.ok id → id ≠ "" → l.labelDone = false →
      (resolveLabelID l f).1 = (id, none)) ∧
    (∀ (teamKey : String) (fs : List (Except String String)),
      (resolveMany (NewPublicLabeler teamKey) (f :: fs)).2.2 = 1 ∧
      ∀ p ∈ (resolveMany (NewPublicLabeler teamKey) (f :: fs)).1,
        p = (resolveLabelID (NewPublicLabeler teamKey) f).1) := by
  refine ⟨?_, ?_, ?_, ?_, ?_, ?_⟩
  · intro h; simp [resolveLabelID, h]
  · intro h; simp [resolveLabelID, h]
  · intro e hf h; subst hf; simp [resolveLabelID, h]
  · intro hf h; subst hf; simp [resolveLabelID, h]
  · intro id hf hne h; subst hf; simp [resolveLabelID, h, hne]
  · intro tk fs
    have hdone : (resolveLabelID (NewPublicLabeler tk) f).2.1.labelDone = true := by
      simp [resolveLabelID, NewPublicLabeler]
    have hr := resolveMany_done fs (resolveLabelID (NewPublicLabeler tk) f).2.1 hdone
    constructor
    · show (resolveMany (NewPublicLabeler tk) (f :: fs)).2.2 = 1
      simp only [resolveMany, hr]
      simp [resolveLabelID, NewPublicLabeler]
    · intro p hp
      simp only [resolveMany, hr] at hp
      rcases List.mem_cons.mp hp with rfl | hp'
      · rfl
      · rcases List.mem_map.mp hp' with ⟨_, _, rfl⟩
        simp [resolveLabelID, NewPublicLabeler]

/-- Witness for C2: a failed first resolution on a fresh resolver is
replayed to two further callers with no additional fetch. -/
theorem resolver_once_spec_witness :
    (resolveMany (NewPublicLabeler "MIR")
        [Except.error "boom", Except.ok "id-2", Except.ok "id-3"]).2.2 = 1 ∧
      ∀ p ∈ (resolveMany (NewPublicLabeler "MIR")
        [Except.error "boom", Except.ok "id-2", Except.ok "id-3"]).1,
        p = ("", some "boom") := by
  have h := (resolver_once_spec (NewPublicLabeler "MIR") (Except.error "boom")).2.2.2.2.2
    "MIR" [Except.ok "id-2", Except.ok "id-3"]
  refine ⟨h.1, fun p hp => (h.2 p hp).trans ?_⟩
  decide

/-! ## Claim C3: EnsurePublicLabel state machine -/

/-- C3.  `EnsurePublicLabel` fetches the issue first; an absent issue or
an already-labelled issue is a successful no-op with no further calls and
no resolver-state change; otherwise the call sequence is exactly
fetch → label-fetch (only when the resolver is fresh) → apply, with
exactly one `AddLabel` call, and fetch, resolution and apply errors are
propagated. -/
theorem ensure_public_label_spec (l : PublicLabeler)
    (fetchIssueRes : Except String (Option Issue)) (fetchLabelRes : Except String String)
    (addLabelRes : String → String → Except String Unit) (identifier : String) :
    (∀ e, fetchIssueRes = Except.error e →
      EnsurePublicLabel l fetchIssueRes fetchLabelRes addLabelRes identifier =
        (Except.error ("fetch issue " ++ identifier ++ ": " ++ e), l,
          [ApiCall.fetchIssue])) ∧
    (fetchIssueRes = Except.ok none →
      EnsurePublicLabel l fetchIssueRes fetchLabelRes addLabelRes identifier =
        (Except.ok (), l, [ApiCall.fetchIssue])) ∧
    (∀ issue, fetchIssueRes = Except.ok (some issue) → issue.HasLabel "public" = true →
      EnsurePublicLabel l fetchIssueRes fetchLabelRes addLabelRes identifier =
        (Except.ok (), l, [ApiCall.fetchIssue])) ∧
    (∀ issue id, fetchIssueRes = Except.ok (some issue) → issue.HasLabel "public" = false →
      l.labelDone = false → fetchLabelRes = Except.ok id → id ≠ "" →
      (EnsurePublicLabel l fetchIssueRes fetchLabelRes addLabelRes identifier).2.2 =
          [ApiCall.fetchIssue, ApiCall.fetchLabel, ApiCall.addLabel] ∧
        (addLabelRes issue.id id = Except.ok () →
          (EnsurePublicLabel l fetchIssueRes fetchLabelRes addLabelRes identifier).1 =
            Except.ok ()) ∧
        (∀ e, addLabelRes issue.id id = Except.error e →
          (EnsurePublicLabel l fetchIssueRes fetchLabelRes addLabelRes identifier).1 =
            Except.error ("add label to " ++ identifier ++ ": " ++ e))) ∧
    (∀ issue, fetchIssueRes = Except.ok (some issue) → issue.HasLabel "public" = false →
      l.labelDone = true → l.labelErr = none →
      (EnsurePublicLabel l fetchIssueRes fetchLabelRes addLabelRes identifier).2.2 =
        [ApiCall.fetchIssue, ApiCall.addLabel]) ∧
    (∀ issue e, fetchIssueRes = Except.ok (some issue) → issue.HasLabel "public" = false →
      (resolveLabelID l fetchLabelRes).1.2 = some e →
      EnsurePublicLabel l fetchIssueRes fetchLabelRes addLabelRes identifier =
        (Except.error e, (resolveLabelID l fetchLabelRes).2.1,
          ApiCall.fetchIssue ::
            (if (resolveLabelID l fetchLabelRes).2.2 = 0 then []
             else [ApiCall.fetchLabel]))) := by
  refine ⟨?_, ?_, ?_, ?_, ?_, ?_⟩
  · intro e hf; subst hf; rfl
  · intro hf; subst hf; rfl
  · intro issue hf hl; subst hf; simp [EnsurePublicLabel, hl]
  · intro issue id hf hl hdone hflr hne
    subst hf; subst hflr
    have hres : resolveLabelID l (Except.ok id) = ((id, none), ⟨l.teamKey, true, id, none⟩, 1) := by
      simp [resolveLabelID, hdone, hne]
    refine ⟨?_, ?_, ?_⟩
    · simp [EnsurePublicLabel, hl, hres]
      rcases addLabelRes issue.id id with e | u <;> simp
    · intro hadd
      simp [EnsurePublicLabel, hl, hres, hadd]
    · intro e hadd
      simp [EnsurePublicLabel, hl, hres, hadd]
  · intro issue hf hl hdone herr
    subst hf
    have hres : resolveLabelID l fetchLabelRes = ((l.labelID, l.labelErr), l, 0) := by
      simp [resolveLabelID, hdone]
    simp only [EnsurePublicLabel, hl, hres, herr]
    rcases addLabelRes issue.id l.labelID with e | u <;> simp
  · intro issue e hf hl herr
    subst hf
    simp only [EnsurePublicLabel, hl]
    simp only [Bool.false_eq_true, if_false]
    rw [herr]

/-- Witness for C3: the normal path on an unlabelled issue performs
exactly fetch → label-fetch → apply. -/
theorem ensure_public_label_spec_witness :
    (EnsurePublicLabel (NewPublicLabeler "MIR")
        (Except.ok (some ⟨"i1", "MIR-1", "T", "", ⟨"", "", ""⟩, 0, [], [], "", 0, 0⟩))
        (Except.ok "lab-1") (fun _ _ => Except.ok ()) "MIR-1").2.2 =
        [ApiCall.fetchIssue, ApiCall.fetchLabel, ApiCall.addLabel] ∧
      (EnsurePublicLabel (NewPublicLabeler "MIR")
        (Except.ok (some ⟨"i1", "MIR-1", "T", "", ⟨"", "", ""⟩, 0, [], [], "", 0, 0⟩))
        (Except.ok "lab-1") (fun _ _ => Except.ok ()) "MIR-1").1 = Except.ok () := by
  have h := (ensure_public_label_spec (NewPublicLabeler "MIR")
      (Except.ok (some ⟨"i1", "MIR-1", "T", "", ⟨"", "", ""⟩, 0, [], [], "", 0, 0⟩))
      (Except.ok "lab-1") (fun _ _ => Except.ok ()) "MIR-1").2.2.2.1
      ⟨"i1", "MIR-1", "T", "", ⟨"", "", ""⟩, 0, [], [], "", 0, 0⟩ "lab-1" rfl (by decide)
      rfl rfl (by decide)
  exact ⟨h.1, h.2.1 rfl⟩

/-! ## HMAC-SHA256 and hex (crypto/hmac, crypto/sha256, encoding/hex)

Bytes are `Nat` values below 256; 32-bit words are reduced explicitly
with `% 2^32`. -/

def w32 (x : Nat) : Nat := x % 4294967296

def rotr32 (n x : Nat) : Nat := w32 ((x >>> n) ||| (x <<< (32 - n)))

def bsig0 (x : Nat) : Nat := (rotr32 2 x) ^^^ (rotr32 13 x) ^^^ (rotr32 22 x)

def bsig1 (x : Nat) : Nat := (rotr32 6 x) ^^^ (rotr32 11 x) ^^^ (rotr32 25 x)

def ssig0 (x : Nat) : Nat := (rotr32 7 x) ^^^ (rotr32 18 x) ^^^ (x >>> 3)

def ssig1 (x : Nat) : Nat := (rotr32 17 x) ^^^ (rotr32 19 x) ^^^ (x >>> 10)

def sha256K : List Nat :=
  [1116352408, 1899447441, 3049323471, 3921009573, 961987163, 1508970993,
   2453635748, 2870763221, 3624381080, 310598401, 607225278, 1426881987,
   1925078388, 2162078206, 2614888103, 3248222580, 3835390401, 4022224774,
   264347078, 604807628, 770255983, 1249150122, 1555081692, 1996064986,
   2554220882, 2821834349, 2952996808, 3210313671, 3336571891, 3584528711,
   113926993, 338241895, 666307205, 773529912, 1294757372, 1396182291,
   1695183700, 1986661051, 2177026350, 2456956037, 2730485921, 2820302411,
   3259730800, 3345764771, 3516065817, 3600352804, 4094571909, 275423344,
   430227734, 506948616, 659060556, 883997877, 958139571, 1322822218,
   1537002063, 1747873779, 1955562222, 2024104815, 2227730452, 2361852424,
   2428436474, 2756734187, 3204031479, 3329325298]

def sha256H0 : List Nat :=
  [1779033703, 3144134277, 1013904242, 2773480762, 1359893119, 2600822924,
   528734635, 1541459225]

/-- `k` big-endian bytes of `v`. -/
def beBytes : Nat → Nat → List Nat
  | 0, _ => []
  | k+1, v => beBytes k (v / 256) ++ [v % 256]

def bytesToWords : List Nat → List Nat
  | b0 :: b1 :: b2 :: b3 :: rest =>
    (((b0 * 256 + b1) * 256 + b2) * 256 + b3) :: bytesToWords rest
  | _ => []

/-- Merkle–Damgård padding: `0x80`, zeros to 56 mod 64, 8-byte bit length. -/
def sha256Pad (msg : List Nat) : List Nat :=
  let len := msg.length
  msg ++ 0x80 :: List.replicate ((119 - len % 64) % 64) 0 ++ beBytes 8 (8 * len)

def scheduleStep (w : List Nat) : List Nat :=
  let i := w.length
  w ++ [w32 ((w.getD (i-16) 0) + ssig0 (w.getD (i-15) 0) + (w.getD (i-7) 0) +
    ssig1 (w.getD (i-2) 0))]

def extendSchedule : Nat → List Nat → List Nat
  | 0, w => w
  | k+1, w => extendSchedule k (scheduleStep w)

def roundStep (k wi : Nat) (st : List Nat) : List Nat :=
  match st with
  | [a, b, c, d, e, f, g, h] =>
    let ch := (e &&& f) ^^^ ((e ^^^ 4294967295) &&& g)
    let maj := (a &&& b) ^^^ (a &&& c) ^^^ (b &&& c)
    let t1 := w32 (h + bsig1 e + ch + k + wi)
    let t2 := w32 (bsig0 a + maj)
    [w32 (t1 + t2), a, b, c, w32 (d + t1), e, f, g]
  | st => st

def compressRounds : List Nat → List Nat → List Nat → List Nat
  | k :: ks, wi :: ws, st => compressRounds ks ws (roundStep k wi st)
  | _, _, st => st

def compressBlock (h : List Nat) (block : List Nat) : List Nat :=
  List.zipWith (fun x y => w32 (x + y)) h
    (compressRounds sha256K (extendSchedule 48 (bytesToWords block)) h)

def sha256Chunks : Nat → List Nat → List Nat → List Nat
  | 0, h, _ => h
  | n+1, h, data => sha256Chunks n (compressBlock h (data.take 64)) (data.drop 64)

def sha256 (msg : List Nat) : List Nat :=
  let padded := sha256Pad msg
  ((sha256Chunks (padded.length / 64) sha256H0 padded).map (beBytes 4)).flatten

/-- `hmac.New(sha256.New, key)` followed by `Write`/`Sum`: RFC 2104 with a
64-byte block (keys longer than 64 bytes are hashed first). -/
def hmacSha256 (key msg : List Nat) : List Nat :=
  let k1 := if 64 < key.length then sha256 key else key
  let k2 := k1 ++ List.replicate (64 - k1.length) 0
  sha256 ((k2.map (fun b => b ^^^ 0x5c)) ++ sha256 ((k2.map (fun b => b ^^^ 0x36)) ++ msg))

/-- `encoding/hex` digit: `0-9`, `a-f` and `A-F` all decode. -/
def hexDigitVal (c : Char) : Option Nat :=
  if '0' ≤ c && c ≤ '9' then some (c.toNat - 48)
  else if 'a' ≤ c && c ≤ 'f' then some (c.toNat - 87)
  else if 'A' ≤ c && c ≤ 'F' then some (c.toNat - 55)
  else none

/-- `hex.DecodeString`: fails on odd length or any non-hex digit. -/
def hexDecodeList : List Char → Option (List Nat)
  | [] => some []
  | [_] => none
  | c1 :: c2 :: rest =>
    match hexDigitVal c1, hexDigitVal c2, hexDecodeList rest with
    | some hi, some lo, some bs => some ((hi * 16 + lo) :: bs)
    | _, _, _ => none

/-- `hex.EncodeToString` (lower-case digits). -/
def hexCharLower (n : Nat) : Char :=
  if n < 10 then Char.ofNat (48 + n) else Char.ofNat (87 + n)

def hexEncodeList (bs : List Nat) : List Char :=
  (bs.map (fun b => [hexCharLower (b / 16), hexCharLower (b % 16)])).flatten

/-- `[]byte(s)` for ASCII strings. -/
def strBytes (s : String) : List Nat := s.toList.map Char.toNat

/-- ASCII upper-casing; the fragment of `strings.ToUpper` exercised by
ASCII team keys. -/
def asciiUpper (c : Char) : Char :=
  if 'a' ≤ c && c ≤ 'z' then Char.ofNat (c.toNat - 32) else c

def goToUpper (s : String) : String := String.mk (s.toList.map asciiUpper)

/-- `strings.HasPrefix`. -/
def goHasPrefixS (s pre : String) : Bool := List.isPrefixOf pre.toList s.toList

/-! ## JSON payloads and event text extraction (src/unnamed/part_002)

`encoding/json` values are modelled by `JValue`; a request carries the
parse result of its body as `Option JValue` (`none` = invalid JSON).
Unmarshalling follows Go semantics: `null` leaves the zero value, absent
fields leave the zero value, a type mismatch fails the whole unmarshal,
and the extractors return `nil` on any unmarshal error. -/

inductive JValue where
  | null
  | bool (b : Bool)
  | num (n : Int)
  | str (s : String)
  | arr (elems : List JValue)
  | obj (fields : List (String × JValue))

/-- Object field lookup; later duplicate keys overwrite earlier ones. -/
def lookupField (fields : List (String × JValue)) (name : String) : Option JValue :=
  match fields with
  | [] => none
  | (k, v) :: rest =>
    match lookupField rest name with
    | some w => some w
    | none => if k = name then some v else none

/-- Unmarshal a JSON value into a Go `string` field. -/
def goStr (v : JValue) : Option String :=
  match v with
  | JValue.str s => some s
  | JValue.null => some ""
  | _ => none

def goStrField (fields : List (String × JValue)) (name : String) : Option String :=
  match lookupField fields name with
  | none => some ""
  | some v => goStr v

def decodePushTexts (v : JValue) : Option (List String) :=
  match v with
  | JValue.null => some []
  | JValue.obj fields =>
    match lookupField fields "commits" with
    | none => some []
    | some JValue.null => some []
    | some (JValue.arr cs) =>
      cs.mapM (fun c =>
        match c with
        | JValue.null => some ""
        | JValue.obj cf => goStrField cf "message"
        | _ => none)
    | some _ => none
  | _ => none

def decodeInnerTitleBody (v : JValue) : Option (List String) :=
  match v with
  | JValue.null => some ["", ""]
  | JValue.obj fs =>
    match goStrField fs "title", goStrField fs "body" with
    | some t, some b => some [t, b]
    | _, _ => none
  | _ => none

def decodeWrappedTitleBody (key : String) (v : JValue) : Option (List String) :=
  match v with
  | JValue.null => some ["", ""]
  | JValue.obj fs =>
    match lookupField fs key with
    | none => some ["", ""]
    | some inner => decodeInnerTitleBody inner
  | _ => none

def decodeWrappedBody (key : String) (v : JValue) : Option (List String) :=
  match v with
  | JValue.null => some [""]
  | JValue.obj fs =>
    match lookupField fs key with
    | none => some [""]
    | some JValue.null => some [""]
    | some (JValue.obj inner) => (goStrField inner "body").map (fun b => [b])
    | some _ => none
  | _ => none

def runExtract (dec : JValue → Option (List String)) (j : Option JValue) : List String :=
  match j with
  | none => []
  | some v => (dec v).getD []

/-- `extractTexts` (src/unnamed/part_002, lines 84-101). -/
def extractTexts (eventType : String) (j : Option JValue) : List String :=
  match eventType with
  | "push" => runExtract decodePushTexts j
  | "pull_request" => runExtract (decodeWrappedTitleBody "pull_request") j
  | "issues" => runExtract (decodeWrappedTitleBody "issue") j
  | "issue_comment" => runExtract (decodeWrappedBody "comment") j
  | "pull_request_review" => runExtract (decodeWrappedBody "review") j
  | "pull_request_review_comment" => runExtract (decodeWrappedBody "comment") j
  | _ => []

/-! ## Webhook handler (src/unnamed/part_002) -/

/-- `maxBodySize = 1 << 20`. -/
def maxBodySize : Nat := 1 <<< 20

structure WebhookHandler where
  secret : List Nat
  teamKey : String

/-- A request: the bytes its body stream offers, whether the underlying
reader fails, the two headers, and the JSON parse of the (read) body. -/
structure WebhookRequest where
  body : List Nat
  readErr : Bool
  signature : List Char
  eventType : String
  parsedBody : Option JValue

/-- `io.ReadAll(io.LimitReader(r.Body, maxBodySize))`: truncates to the
first `maxBodySize` bytes, failing only when the underlying reader
fails. -/
def readBody (r : WebhookRequest) : Except Unit (List Nat) :=
  if r.readErr then Except.error () else Except.ok (r.body.take maxBodySize)

/-- `WebhookHandler.verifySignature` (src/unnamed/part_002, lines 71-82):
`sha256=` + hex digest, compared against HMAC-SHA256 of the body via
`hmac.Equal` (length-checked byte equality; constant-timeness is not
observable in this model). -/
def verifySignature (secret body : List Nat) (signature : List Char) : Bool :=
  if List.isPrefixOf ("sha256=".toList) signature then
    match hexDecodeList (signature.drop 7) with
    | some sig => sig == hmacSha256 secret body
    | none => false
  else false

/-- The builder loop `for _, t := range texts { allText.WriteString(t);
allText.WriteByte('\n') }`. -/
def joinTexts (texts : List String) : String :=
  String.mk ((texts.map (fun t => t.toList ++ ['\n'])).flatten)

/-- The per-identifier loop of `ServeHTTP`: prefix filter plus one
labeler call per surviving identifier (results recorded, never aborting). -/
def processIdentifiers (labeler : String → Except String Unit) (pre : String) :
    List String → List (String × Except String Unit)
  | [] => []
  | id :: rest =>
    if goHasPrefixS id pre then (id, labeler id) :: processIdentifiers labeler pre rest
    else processIdentifiers labeler pre rest

/-- `WebhookHandler.ServeHTTP` (src/unnamed/part_002, lines 35-69).
Returns the HTTP status and the list of labeler invocations with their
outcomes. -/
def ServeHTTP (h : WebhookHandler) (labeler : String → Except String Unit)
    (r : WebhookRequest) : Nat × List (String × Except String Unit) :=
  match readBody r with
  | Except.error _ => (400, [])
  | Except.ok body =>
    if verifySignature h.secret body r.signature then
      (200, processIdentifiers labeler (goToUpper h.teamKey ++ "-")
        (ScanIdentifiers (joinTexts (extractTexts r.eventType r.parsedBody))))
    else (403, [])

/-! ## Claim C4: webhook signature verification -/

theorem hexDigitVal_hexCharLower {n : Nat} (h : n < 16) :
    hexDigitVal (hexCharLower n) = some n := by
  interval_cases n <;> decide

theorem hexDecode_hexEncode (bs : List Nat) (h : ∀ b ∈ bs, b < 256) :
    hexDecodeList (hexEncodeList bs) = some bs := by
  induction bs with
  | nil => rfl
  | cons b bs ih =>
    have hb : b < 256 := h b (List.mem_cons_self b bs)
    have hhi : b / 16 < 16 := by omega
    have hlo : b % 16 < 16 := Nat.mod_lt _ (by omega)
    have ih' := ih (fun x hx => h x (List.mem_cons_of_mem _ hx))
    show hexDecodeList (hexCharLower (b / 16) :: hexCharLower (b % 16) :: hexEncodeList bs) =
      some (b :: bs)
    rw [hexDecodeList, hexDigitVal_hexCharLower hhi, hexDigitVal_hexCharLower hlo, ih']
    dsimp only
    rw [show b / 16 * 16 + b % 16 = b by omega]

theorem beBytes_lt : ∀ (k v : Nat), ∀ b ∈ beBytes k v, b < 256 := by
  intro k
  induction k with
  | zero => intro v b hb; cases hb
  | succ k ih =>
    intro v b hb
    rw [beBytes] at hb
    rcases List.mem_append.mp hb with hb | hb
    · exact ih _ b hb
    · rcases List.mem_singleton.mp hb with rfl
      exact Nat.mod_lt _ (by omega)

theorem sha256_bytes_lt (msg : List Nat) : ∀ b ∈ sha256 msg, b < 256 := by
  intro b hb
  unfold sha256 at hb
  rcases List.mem_flatten.mp hb with ⟨l, hl, hbl⟩
  rcases List.mem_map.mp hl with ⟨w, _, rfl⟩
  exact beBytes_lt 4 w b hbl

theorem hmacSha256_bytes_lt (key msg : List Nat) : ∀ b ∈ hmacSha256 key msg, b < 256 := by
  intro b hb
  unfold hmacSha256 at hb
  exact sha256_bytes_lt _ b hb

theorem isPrefixOf_append_self (pre rest : List Char) :
    List.isPrefixOf pre (pre ++ rest) = true := by
  induction pre with
  | nil => simp [List.isPrefixOf]
  | cons c pre ih => simp [List.isPrefixOf, ih]

set_option maxRecDepth 100000 in
/-- C4 counterexample: the digest hex in upper case also verifies, so
verification does not succeed *only* for the canonical (lower-case) hex
encoding of the digest. -/
theorem verify_signature_c4_counterexample :
    verifySignature (strBytes "key") []
        ("sha256=".toList ++
          (hexEncodeList (hmacSha256 (strBytes "key") [])).map asciiUpper) = true ∧
      "sha256=".toList ++
          (hexEncodeList (hmacSha256 (strBytes "key") [])).map asciiUpper ≠
        "sha256=".toList ++ hexEncodeList (hmacSha256 (strBytes "key") []) := by
  constructor
  · decide
  · decide

/-- C4 (amended).  Verification succeeds iff the header is `sha256=`
followed by hex (either letter case) decoding to the HMAC-SHA256 digest
of the body under the secret; the canonical lower-case encoding always
verifies; and a failed verification makes the handler answer 403 with
zero label-application attempts. -/
theorem verify_signature_spec (secret body : List Nat) (sig : List Char)
    (h : WebhookHandler) (labeler : String → Except String Unit) (r : WebhookRequest) :
    (verifySignature secret body sig = true ↔
      List.isPrefixOf ("sha256=".toList) sig = true ∧
        hexDecodeList (sig.drop 7) = some (hmacSha256 secret body)) ∧
    verifySignature secret body
      ("sha256=".toList ++ hexEncodeList (hmacSha256 secret body)) = true ∧
    (∀ body', readBody r = Except.ok body' →
      verifySignature h.secret body' r.signature = false →
      ServeHTTP h labeler r = (403, [])) := by
  refine ⟨?_, ?_, ?_⟩
  · unfold verifySignature
    by_cases hpre : List.isPrefixOf ("sha256=".toList) sig
    · rw [if_pos hpre]
      rcases hdec : hexDecodeList (sig.drop 7) with _ | bs
      · constructor
        · intro hfalse; exact Bool.noConfusion hfalse
        · rintro ⟨_, hcontra⟩; exact Option.noConfusion hcontra
      · constructor
        · intro htrue
          exact ⟨hpre, by rw [eq_of_beq htrue]⟩
        · rintro ⟨_, hsome⟩
          injection hsome with hbs
          show (bs == hmacSha256 secret body) = true
          rw [hbs]
          exact beq_self_eq_true _
    · rw [if_neg hpre]
      exact ⟨fun hfalse => absurd hfalse (by decide), fun hc => absurd hc.1 hpre⟩
  · unfold verifySignature
    rw [if_pos (isPrefixOf_append_self _ _)]
    have hdrop : (("sha256=".toList ++ hexEncodeList (hmacSha256 secret body)).drop 7) =
        hexEncodeList (hmacSha256 secret body) := rfl
    rw [hdrop, hexDecode_hexEncode _ (hmacSha256_bytes_lt secret body)]
    simp
  · intro body' hread hver
    unfold ServeHTTP
    rw [hread]
    dsimp only
    rw [hver]
    simp

/-- Witness for C4's amended theorem: a concrete request whose signature
header fails verification is answered 403 with no attempts. -/
theorem verify_signature_spec_witness :
    verifySignature (strBytes "key") []
        ("sha256=".toList ++ hexEncodeList (hmacSha256 (strBytes "key") [])) = true ∧
      ServeHTTP ⟨strBytes "key", "MIR"⟩ (fun _ => Except.ok ())
        ⟨[], false, "bad".toList, "push", none⟩ = (403, []) := by
  have h := verify_signature_spec (strBytes "key") [] [] ⟨strBytes "key", "MIR"⟩
    (fun _ => Except.ok ()) ⟨[], false, "bad".toList, "push", none⟩
  exact ⟨h.2.1, h.2.2 [] rfl (by decide)⟩

/-! ## Claim C5: the webhook always acknowledges after authentication -/

theorem processIdentifiers_fst (labeler : String → Except String Unit) (pre : String) :
    ∀ ids, (processIdentifiers labeler pre ids).map Prod.fst =
      ids.filter (fun id => goHasPrefixS id pre) := by
  intro ids
  induction ids with
  | nil => rfl
  | cons id rest ih =>
    by_cases hp : goHasPrefixS id pre
    · simp [processIdentifiers, hp, List.filter_cons, ih]
    · simp [processIdentifiers, hp, List.filter_cons, ih]

/-- C5.  Once the body is read and the signature verifies, the handler
answers 200 whatever the event type, payload shape or per-identifier
outcomes; the invocation list covers every surviving identifier (an
individual labeler failure aborts nothing and is invisible in the
status); unknown event types and unparseable payloads contribute no text
and are not an error. -/
theorem webhook_ack_spec (h : WebhookHandler) (labeler : String → Except String Unit)
    (r : WebhookRequest) :
    (∀ body', readBody r = Except.ok body' →
      verifySignature h.secret body' r.signature = true →
      (ServeHTTP h labeler r).1 = 200 ∧
      (ServeHTTP h labeler r).2 =
        processIdentifiers labeler (goToUpper h.teamKey ++ "-")
          (ScanIdentifiers (joinTexts (extractTexts r.eventType r.parsedBody))) ∧
      (ServeHTTP h labeler r).2.map Prod.fst =
        (ScanIdentifiers (joinTexts (extractTexts r.eventType r.parsedBody))).filter
          (fun id => goHasPrefixS id (goToUpper h.teamKey ++ "-"))) ∧
    (∀ et, et ≠ "push" → et ≠ "pull_request" → et ≠ "issues" → et ≠ "issue_comment" →
      et ≠ "pull_request_review" → et ≠ "pull_request_review_comment" →
      ∀ j, extractTexts et j = []) ∧
    (∀ et, extractTexts et none = []) := by
  refine ⟨?_, ?_, ?_⟩
  · intro body' hread hver
    unfold ServeHTTP
    rw [hread]
    dsimp only
    rw [hver]
    simp [processIdentifiers_fst]
  · intro et h1 h2 h3 h4 h5 h6 j
    unfold extractTexts
    split <;> simp_all
  · intro et
    unfold extractTexts
    split <;> rfl

set_option maxRecDepth 100000 in
/-- Witness for C5: a signed push request whose labeler always fails is
still answered 200. -/
theorem webhook_ack_spec_witness :
    (ServeHTTP ⟨[], "mir"⟩ (fun _ => Except.error "labeler down")
        ⟨[], false, "sha256=".toList ++ hexEncodeList (hmacSha256 [] []), "push",
          some (JValue.obj [("commits", JValue.arr
            [JValue.obj [("message", JValue.str "Fix MIR-42 and ABC-7")]])])⟩).1 = 200 := by
  have h := (webhook_ack_spec ⟨[], "mir"⟩ (fun _ => Except.error "labeler down")
      ⟨[], false, "sha256=".toList ++ hexEncodeList (hmacSha256 [] []), "push",
        some (JValue.obj [("commits", JValue.arr
          [JValue.obj [("message", JValue.str "Fix MIR-42 and ABC-7")]])])⟩).1
      [] rfl (by decide)
  exact h.1

/-! ## Claim C8: body size handling -/

/-- C8 counterexample: a body one byte beyond `maxBodySize` does *not*
fail the read — `io.ReadAll(io.LimitReader(..))` silently truncates to
1 MiB — and the handler proceeds to signature verification (403 here,
not the read-failure 400). -/
theorem read_body_c8_counterexample :
    readBody ⟨List.replicate (maxBodySize + 1) 0, false, [], "push", none⟩ =
        Except.ok (List.replicate maxBodySize 0) ∧
      (ServeHTTP ⟨[], "MIR"⟩ (fun _ => Except.ok ())
        ⟨List.replicate (maxBodySize + 1) 0, false, [], "push", none⟩).1 = 403 := by
  have htake : (List.replicate (maxBodySize + 1) (0 : Nat)).take maxBodySize =
      List.replicate maxBodySize 0 := by
    rw [List.take_replicate, min_eq_left (Nat.le_succ maxBodySize)]
  have hv : verifySignature [] (List.replicate maxBodySize (0 : Nat)) [] = false := rfl
  constructor
  · simp [readBody, htake]
  · simp [ServeHTTP, readBody, htake, hv]

/-- C8 (amended).  The handler reads at most `maxBodySize` (1 MiB) bytes:
an oversized body is truncated, not rejected; the read fails only when
the underlying reader fails, in which case the handler answers 400 with
no further processing; bodies within the cap are read in full. -/
theorem read_body_spec (h : WebhookHandler) (labeler : String → Except String Unit)
    (r : WebhookRequest) :
    (r.readErr = true → readBody r = Except.error () ∧
      ServeHTTP h labeler r = (400, [])) ∧
    (r.readErr = false → readBody r = Except.ok (r.body.take maxBodySize)) ∧
    (r.readErr = false → r.body.length ≤ maxBodySize → readBody r = Except.ok r.body) := by
  refine ⟨?_, ?_, ?_⟩
  · intro he
    have hrb : readBody r = Except.error () := by simp [readBody, he]
    exact ⟨hrb, by simp [ServeHTTP, hrb]⟩
  · intro he
    simp [readBody, he]
  · intro he hlen
    simp [readBody, he, List.take_of_length_le hlen]

/-- Witness for C8's amended theorem: a failing reader yields 400; a
3-byte body is read whole. -/
theorem read_body_spec_witness :
    ServeHTTP ⟨[], "MIR"⟩ (fun _ => Except.ok ()) ⟨[1, 2, 3], true, [], "push", none⟩ =
        (400, []) ∧
      readBody ⟨[1, 2, 3], false, [], "push", none⟩ = Except.ok [1, 2, 3] := by
  refine ⟨((read_body_spec ⟨[], "MIR"⟩ (fun _ => Except.ok ())
    ⟨[1, 2, 3], true, [], "push", none⟩).1 rfl).2, ?_⟩
  exact (read_body_spec ⟨[], "MIR"⟩ (fun _ => Except.ok ())
    ⟨[1, 2, 3], false, [], "push", none⟩).2.2 rfl (by decide)

/-! ## Claim C10: newline-joined scan equals per-field scan -/

theorem dedupAux_flatten_dedup : ∀ (ts : List (List String)) (s : List String),
    dedupAux s ((ts.map (dedupAux [])).flatten) = dedupAux s ts.flatten := by
  intro ts
  induction ts with
  | nil => intro s; rfl
  | cons x ts ih =>
    intro s
    rw [List.map_cons, List.flatten_cons, List.flatten_cons, dedupAux_append, dedupAux_append]
    congr 1
    · exact dedupAux_dedupAux x [] s (fun a ha => absurd ha (List.not_mem_nil a))
    · rw [ih (dedupAux [] x ++ s)]
      apply dedupAux_congr
      intro a
      simp only [List.mem_append, mem_dedupAux, List.not_mem_nil]
      tauto

/-- C10.  The handler joins the extracted fields with `'\n'` and scans
once; since `'\n'` is a word boundary and cannot occur inside a token,
the scan of the joined text is exactly the concatenation of the
per-field scans — no identifier can span a field boundary — so the
deduplicated identifier list equals the first-seen dedup of the
concatenated per-field results (raw or individually deduplicated), and
the identifiers the handler processes are that list filtered by the
team prefix. -/
theorem webhook_join_scan_spec (h : WebhookHandler) (labeler : String → Except String Unit)
    (r : WebhookRequest) (texts : List String) :
    findTokens (joinTexts texts) = (texts.map findTokens).flatten ∧
    ScanIdentifiers (joinTexts texts) = dedupAux [] ((texts.map findTokens).flatten) ∧
    ScanIdentifiers (joinTexts texts) = dedupAux [] ((texts.map ScanIdentifiers).flatten) ∧
    (∀ body', readBody r = Except.ok body' →
      verifySignature h.secret body' r.signature = true →
      (ServeHTTP h labeler r).2.map Prod.fst =
        (dedupAux []
            (((extractTexts r.eventType r.parsedBody).map findTokens).flatten)).filter
          (fun id => goHasPrefixS id (goToUpper h.teamKey ++ "-"))) := by
  have hjoin : ∀ ts : List String, findTokens (joinTexts ts) = (ts.map findTokens).flatten := by
    intro ts
    show (scanTokensAux false ((ts.map (fun t => t.toList ++ ['\n'])).flatten)).map String.mk =
      (ts.map findTokens).flatten
    rw [scan_join, List.map_flatten, List.map_map]
    rfl
  have hscan : ∀ ts : List String,
      ScanIdentifiers (joinTexts ts) = dedupAux [] ((ts.map findTokens).flatten) := by
    intro ts
    show dedupAux [] (findTokens (joinTexts ts)) = _
    rw [hjoin]
  refine ⟨hjoin texts, hscan texts, ?_, ?_⟩
  · rw [hscan texts]
    have : texts.map ScanIdentifiers = (texts.map findTokens).map (dedupAux []) := by
      rw [List.map_map]
      rfl
    rw [this, dedupAux_flatten_dedup]
  · intro body' hread hver
    unfold ServeHTTP
    rw [hread]
    dsimp only
    rw [hver]
    simp [processIdentifiers_fst, hscan]

/-! ## Claim C7: the identifier grammar -/

theorem mem_findTokens (s x : String) :
    x ∈ findTokens s ↔ x.toList ∈ scanTokensAux false s.toList := by
  unfold findTokens
  constructor
  · intro hx
    rcases List.mem_map.mp hx with ⟨l, hl, rfl⟩
    exact hl
  · intro hx
    refine List.mem_map.mpr ⟨x.toList, hx, ?_⟩
    cases x
    rfl

/-- C7.  `ScanIdentifiers` returns exactly the whole-word occurrences of
upper-case-letters/hyphen/digits tokens: membership is equivalent to the
token having the `[A-Z]+-[0-9]+` shape and occurring word-boundary
anchored in the text; the result has no duplicates and is a sublist of
the in-order match sequence; and the four grammar examples of the spec
evaluate as stated. -/
theorem scan_identifiers_spec :
    (∀ (s : String) (x : String),
      x ∈ ScanIdentifiers s ↔
        isIdentShape x.toList ∧ tokenOccursAt false s.toList x.toList) ∧
    (∀ s : String, (ScanIdentifiers s).Nodup) ∧
    (∀ s : String, (ScanIdentifiers s).Sublist (findTokens s)) ∧
    ScanIdentifiers "Fixed MIR-42 in latest commit" = ["MIR-42"] ∧
    ScanIdentifiers "MIR-42 is the same as MIR-42" = ["MIR-42"] ∧
    ScanIdentifiers "mir-42 should not match" = [] ∧
    ScanIdentifiers "ABC-1 and DEF-99" = ["ABC-1", "DEF-99"] := by
  refine ⟨?_, ?_, ?_, by decide, by decide, by decide, by decide⟩
  · intro s x
    show x ∈ dedupAux [] (findTokens s) ↔ _
    rw [mem_dedupAux]
    simp only [List.not_mem_nil, not_false_iff, and_true]
    rw [mem_findTokens]
    constructor
    · exact scan_sound s.toList false x.toList
    · rintro ⟨hshape, hocc⟩
      exact scan_complete s.toList false x.toList hshape hocc
  · intro s
    exact nodup_dedupAux _ []
  · intro s
    exact dedupAux_sublist _ []

/-- Witness for C7: the characterisation applied at a concrete text. -/
theorem scan_identifiers_spec_witness :
    isIdentShape "MIR-42".toList ∧
      tokenOccursAt false "Fixed MIR-42 in latest commit".toList "MIR-42".toList :=
  (scan_identifiers_spec.1 "Fixed MIR-42 in latest commit" "MIR-42").mp (by decide)

/-! ## Claim C9: ParseIdentifier -/

theorem splitOnceDash_some : ∀ (l pre post : List Char),
    splitOnceDash l = some (pre, post) ↔ l = pre ++ '-' :: post ∧ '-' ∉ pre := by
  intro l
  induction l with
  | nil =>
    intro pre post
    constructor
    · intro h; cases h
    · rintro ⟨h, _⟩
      exact absurd h.symm (by simp)
  | cons c rest ih =>
    intro pre post
    by_cases hc : c = '-'
    · subst hc
      rw [splitOnceDash, if_pos rfl]
      constructor
      · intro h
        injection h with h'
        injection h' with h1 h2
        subst h1; subst h2
        exact ⟨rfl, List.not_mem_nil _⟩
      · rintro ⟨heq, hnm⟩
        cases pre with
        | nil =>
          injection heq with _ h2
          rw [h2]
        | cons p pre' =>
          rw [List.cons_append] at heq
          injection heq with h1 _
          exact absurd (List.mem_cons.mpr (Or.inl h1)) hnm
    · rw [splitOnceDash, if_neg hc]
      rcases hrec : splitOnceDash rest with _ | ⟨pre2, post2⟩
      · constructor
        · intro h; cases h
        · rintro ⟨heq, hnm⟩
          cases pre with
          | nil =>
            injection heq with h1 _
            exact absurd h1 hc
          | cons p pre' =>
            rw [List.cons_append] at heq
            injection heq with h1 h2
            subst h1
            have : rest = pre' ++ '-' :: post ∧ '-' ∉ pre' := by
              refine ⟨h2, fun hm => hnm (List.mem_cons_of_mem _ hm)⟩
            rw [(ih pre' post).mpr this] at hrec
            cases hrec
      · constructor
        · intro h
          injection h with h'
          injection h' with h1 h2
          subst h1; subst h2
          obtain ⟨heq, hnm⟩ := (ih pre2 post2).mp hrec
          refine ⟨by rw [heq, List.cons_append], ?_⟩
          intro hm
          rcases List.mem_cons.mp hm with h | h
          · exact hc h.symm
          · exact hnm h
        · rintro ⟨heq, hnm⟩
          cases pre with
          | nil =>
            injection heq with h1 _
            exact absurd h1 hc
          | cons p pre' =>
            rw [List.cons_append] at heq
            injection heq with h1 h2
            subst h1
            have hih : splitOnceDash rest = some (pre', post) := (ih pre' post).mpr
              ⟨h2, fun hm => hnm (List.mem_cons_of_mem _ hm)⟩
            rw [hih] at hrec
            injection hrec with h'
            injection h' with h3 h4
            rw [h3, h4]

/-- C9 counterexample: `ParseIdentifier` accepts `"-42"` with an *empty*
team key, and `"MIR--5"` with a *negative* issue number — both violate
the claimed invariant. -/
theorem parse_identifier_c9_counterexample :
    ParseIdentifier "-42" = Except.ok ("", 42) ∧ ("" : String).length = 0 ∧
      ParseIdentifier "MIR--5" = Except.ok ("MIR", -5) ∧ (-5 : Int) < 0 := by
  refine ⟨by decide, rfl, by decide, by decide⟩

/-- C9 (amended).  `ParseIdentifier` accepts exactly the strings that
contain a `'-'` whose remainder after the *first* `'-'` parses under
`strconv.Atoi` (optional sign, digits, 64-bit range): the team key is
the — possibly empty — text before the first `'-'` and the number is the
parsed — possibly negative — integer. -/
theorem parse_identifier_spec (s : String) (tk : String) (n : Int) :
    ParseIdentifier s = Except.ok (tk, n) ↔
      ∃ post, s.toList = tk.toList ++ '-' :: post ∧ '-' ∉ tk.toList ∧
        goAtoi post = some n := by
  unfold ParseIdentifier
  rcases hsp : splitOnceDash s.toList with _ | ⟨pre, post⟩ <;> dsimp only
  · constructor
    · intro h; cases h
    · rintro ⟨post', heq', hnm', _⟩
      rw [(splitOnceDash_some s.toList tk.toList post').mpr ⟨heq', hnm'⟩] at hsp
      cases hsp
  · obtain ⟨heq, hnm⟩ := (splitOnceDash_some s.toList pre post).mp hsp
    rcases hat : goAtoi post with _ | m <;> dsimp only
    · constructor
      · intro h; cases h
      · rintro ⟨post', heq', hnm', hat'⟩
        rw [(splitOnceDash_some s.toList tk.toList post').mpr ⟨heq', hnm'⟩] at hsp
        injection hsp with h''
        injection h'' with h1 h2
        subst h2
        rw [hat'] at hat
        cases hat
    · constructor
      · intro h
        injection h with h'
        injection h' with h1 h2
        subst h2
        refine ⟨post, ?_, ?_, hat⟩
        · rw [heq, ← h1]
          rfl
        · rw [← h1]
          exact hnm
      · rintro ⟨post', heq', hnm', hat'⟩
        rw [(splitOnceDash_some s.toList tk.toList post').mpr ⟨heq', hnm'⟩] at hsp
        injection hsp with h''
        injection h'' with h1 h2
        subst h2
        rw [hat'] at hat
        injection hat with h3
        cases tk with
        | mk d =>
          have h1' : d = pre := h1
          subst h1'
          rw [h3]

/-- Witness for C9's amended theorem at `"MIR-42"`. -/
theorem parse_identifier_spec_witness :
    ∃ post, "MIR-42".toList = "MIR".toList ++ '-' :: post ∧ '-' ∉ "MIR".toList ∧
      goAtoi post = some 42 :=
  (parse_identifier_spec "MIR-42" "MIR" 42).mp (by decide)

/-- Witness for C10 at two concrete fields: a token ending at a field
boundary is found, and none is assembled across the boundary. -/
theorem webhook_join_scan_spec_witness :
    findTokens (joinTexts ["fixes MIR-1", "2 and MIR-3"]) =
      (["fixes MIR-1", "2 and MIR-3"].map findTokens).flatten :=
  (webhook_join_scan_spec ⟨[], "MIR"⟩ (fun _ => Except.ok ())
    ⟨[], false, [], "push", none⟩ ["fixes MIR-1", "2 and MIR-3"]).1

/-! ## Backfill scanner (src/internal/github/backfill.go)

The network is a map from request URL to an optional response (`none`
models a transport or body-read failure); git invocation is the outcome
the one `git log --format=%B` call would produce.  Response bodies are
carried as their JSON parse (`none` = invalid JSON, which fails the
per-page decode exactly as `json.Unmarshal` does). -/

structure HttpResponse where
  status : Nat
  jsonBody : Option JValue
  linkHeader : String

structure ScanEnv where
  net : String → Option HttpResponse
  gitResult : Except String String

structure RepoScanner where
  baseURL : String
  token : String
  owner : String
  repo : String
  gitDir : String

def repoURL (s : RepoScanner) (path : String) : String :=
  s.baseURL ++ "/repos/" ++ s.owner ++ "/" ++ s.repo ++ path

def containsSub (needle : List Char) : List Char → Bool
  | [] => List.isPrefixOf needle []
  | c :: rest => List.isPrefixOf needle (c :: rest) || containsSub needle rest

/-- `strings.Contains`. -/
def containsStr (s sub : String) : Bool := containsSub sub.toList s.toList

/-- The `per_page=100` query rewriting at the top of `paginate`. -/
def withPerPage (url : String) : String :=
  if containsStr url "per_page=" then url
  else url ++ (if containsStr url "?" then "&" else "?") ++ "per_page=100"

/-- RE2 `\s`: `[\t\n\f\r ]`. -/
def isSpaceRE2 (c : Char) : Bool :=
  c = ' ' || c = '\t' || c = '\n' || c = '\x0c' || c = '\r'

/-- Attempt the regex `<([^>]+)>;\s*rel="next"` anchored at the head of
`l`; on success return the captured URL characters. -/
def linkNextAt (l : List Char) : Option (List Char) :=
  match l with
  | '<' :: rest =>
    let u := rest.takeWhile (fun c => !(c == '>'))
    if u = [] then none else
    match rest.dropWhile (fun c => !(c == '>')) with
    | '>' :: ';' :: r2 =>
      if List.isPrefixOf ("rel=\"next\"".toList) (r2.dropWhile isSpaceRE2) then some u
      else none
    | _ => none
  | _ => none

/-- Leftmost match of the `rel="next"` pattern. -/
def nextPageScan : List Char → Option (List Char)
  | [] => none
  | c :: rest =>
    match linkNextAt (c :: rest) with
    | some u => some u
    | none => nextPageScan rest

/-- `nextPageURL` (src/internal/github/backfill.go): the captured URL of
the first `<URL>; rel="next"` relation, or `""` when absent. -/
def nextPageURL (link : String) : String :=
  match nextPageScan link.toList with
  | some u => String.mk u
  | none => ""

/-- Element decode for `/pulls` and `/issues` pages: structs with
`title`/`body` string fields. -/
def decodeElemTitleBody (v : JValue) : Option (List String) :=
  match v with
  | JValue.null => some ["", ""]
  | JValue.obj fs =>
    match goStrField fs "title", goStrField fs "body" with
    | some t, some b => some [t, b]
    | _, _ => none
  | _ => none

/-- Element decode for comment pages: structs with a `body` string field. -/
def decodeElemBody (v : JValue) : Option (List String) :=
  match v with
  | JValue.null => some [""]
  | JValue.obj fs => (goStrField fs "body").map (fun b => [b])
  | _ => none

/-- `json.Unmarshal` of a page body into a slice of elements, flattening
the texts passed to `collect` in order; any shape mismatch is a decode
error (fatal for the scan). -/
def decodeListTexts (elemDec : JValue → Option (List String)) (v : JValue) :
    Except String (List String) :=
  match v with
  | JValue.null => Except.ok []
  | JValue.arr xs =>
    match xs.mapM elemDec with
    | some tss => Except.ok tss.flatten
    | none => Except.error "unmarshal page"
  | _ => Except.error "unmarshal page"

def decodePullsPage : JValue → Except String (List String) :=
  decodeListTexts decodeElemTitleBody

def decodeIssuesPage : JValue → Except String (List String) :=
  decodeListTexts decodeElemTitleBody

def decodeCommentsPage : JValue → Except String (List String) :=
  decodeListTexts decodeElemBody

/-- The page loop of `paginate`: request the URL, fail on transport
error or a non-200 status or a decode error, collect the page's texts,
and continue at the Link header's `rel="next"` URL until none remains.
`fuel` bounds the page count (the Go loop is unbounded). -/
def paginateLoop (env : ScanEnv) (decode : JValue → Except String (List String)) :
    Nat → String → Except String (List String)
  | 0, url => if url = "" then Except.ok [] else Except.error "page budget exhausted"
  | fuel+1, url =>
    if url = "" then Except.ok []
    else
      match env.net url with
      | none => Except.error "request failed"
      | some resp =>
        if resp.status = 200 then
          match resp.jsonBody with
          | none => Except.error "unreadable response body"
          | some j =>
            match decode j with
            | Except.error e => Except.error e
            | Except.ok texts =>
              match paginateLoop env decode fuel (nextPageURL resp.linkHeader) with
              | Except.error e => Except.error e
              | Except.ok more => Except.ok (texts ++ more)
        else Except.error "GitHub API status not OK"

def paginate (env : ScanEnv) (decode : JValue → Except String (List String))
    (fuel : Nat) (url : String) : Except String (List String) :=
  paginateLoop env decode fuel (withPerPage url)

/-- One step of the `collect` closure in `ScanRepo`: keep the identifier
when it carries the team prefix and was not seen yet (`seen` coincides
with membership in the accumulated result). -/
def collectOne (pre : String) (acc : List String) (id : String) : List String :=
  if goHasPrefixS id pre then (if id ∈ acc then acc else acc ++ [id]) else acc

def collectText (pre : String) (acc : List String) (text : String) : List String :=
  (ScanIdentifiers text).foldl (collectOne pre) acc

def collectTexts (pre : String) (acc : List String) (texts : List String) : List String :=
  texts.foldl (collectText pre) acc

/-- The four remote sources of `ScanRepo`, in their fixed order. -/
def scanRemoteSources (env : ScanEnv) (s : RepoScanner) (fuel : Nat) (pre : String)
    (gitTexts : List String) : Except String (List String) :=
  match paginate env decodePullsPage fuel (repoURL s "/pulls?state=all") with
  | Except.error e => Except.error ("scan pull requests: " ++ e)
  | Except.ok ts1 =>
    match paginate env decodeIssuesPage fuel (repoURL s "/issues?state=all") with
    | Except.error e => Except.error ("scan issues: " ++ e)
    | Except.ok ts2 =>
      match paginate env decodeCommentsPage fuel (repoURL s "/issues/comments") with
      | Except.error e => Except.error ("scan issue comments: " ++ e)
      | Except.ok ts3 =>
        match paginate env decodeCommentsPage fuel (repoURL s "/pulls/comments") with
        | Except.error e => Except.error ("scan review comments: " ++ e)
        | Except.ok ts4 =>
          Except.ok (collectTexts pre [] (gitTexts ++ ts1 ++ ts2 ++ ts3 ++ ts4))

/-- `RepoScanner.ScanRepo` (src/internal/github/backfill.go, lines
36-81): optional local git history first, then pull requests, issues,
issue comments and review comments, every text collected through the
shared prefix-filtering, deduplicating accumulator; the first error of
any source aborts the scan. -/
def ScanRepo (env : ScanEnv) (s : RepoScanner) (fuel : Nat) (teamKey : String) :
    Except String (List String) :=
  let pre := goToUpper teamKey ++ "-"
  if s.gitDir = "" then scanRemoteSources env s fuel pre []
  else
    match env.gitResult with
    | Except.error e => Except.error ("scan git log: git log: " ++ e)
    | Except.ok out => scanRemoteSources env s fuel pre [out]

/-- A non-OK HTTP status is reachable along the page chain from `url`
(walking only through successfully decoded OK pages). -/
def pageChainBad (env : ScanEnv) (decode : JValue → Except String (List String)) :
    Nat → String → Bool
  | 0, _ => false
  | fuel+1, url =>
    if url = "" then false
    else
      match env.net url with
      | none => false
      | some resp =>
        if resp.status = 200 then
          match resp.jsonBody with
          | none => false
          | some j =>
            match decode j with
            | Except.error _ => false
            | Except.ok _ => pageChainBad env decode fuel (nextPageURL resp.linkHeader)
        else true

/-- A two-page test environment for the backfill scanner: the first
pull-request page carries a `rel="next"` link to the second. -/
def exampleScanner : RepoScanner := ⟨"", "", "o", "r", "g"⟩

def exampleEnv : ScanEnv :=
  ⟨fun url =>
    if url = "/repos/o/r/pulls?state=all&per_page=100" then
      some ⟨200, some (JValue.arr [JValue.obj
        [("title", JValue.str "MIR-1 one"), ("body", JValue.str "dup MIR-1 and ABC-9")]]),
        "</repos/o/r/pulls?state=all&per_page=100&page=2>; rel=\"next\""⟩
    else if url = "/repos/o/r/pulls?state=all&per_page=100&page=2" then
      some ⟨200, some (JValue.arr [JValue.obj
        [("title", JValue.str "MIR-2 two"), ("body", JValue.null)]]), ""⟩
    else if url = "/repos/o/r/issues?state=all&per_page=100" then
      some ⟨200, some (JValue.arr []), ""⟩
    else if url = "/repos/o/r/issues/comments?per_page=100" then
      some ⟨200, some (JValue.arr []), ""⟩
    else if url = "/repos/o/r/pulls/comments?per_page=100" then
      some ⟨200, some (JValue.arr []), ""⟩
    else none,
   Except.ok "MIR-10: first\nMIR-11: second\nunrelated\nalso MIR-10 again and MIR-1"⟩

/-! ## Claim C6: the backfill scan -/

theorem collectOne_foldl (pre : String) : ∀ (ms acc : List String),
    ms.foldl (collectOne pre) acc =
      acc ++ dedupAux acc (ms.filter (fun id => goHasPrefixS id pre)) := by
  intro ms
  induction ms with
  | nil => intro acc; simp [dedupAux]
  | cons m ms ih =>
    intro acc
    rw [List.foldl_cons, List.filter_cons]
    by_cases hp : goHasPrefixS m pre
    · rw [if_pos hp]
      by_cases hm : m ∈ acc
      · rw [show collectOne pre acc m = acc by simp [collectOne, hp, hm],
          dedupAux_cons_of_mem _ hm, ih]
      · rw [show collectOne pre acc m = acc ++ [m] by simp [collectOne, hp, hm],
          dedupAux_cons_of_not_mem _ hm, ih]
        rw [List.append_assoc, List.singleton_append]
        congr 2
        apply dedupAux_congr
        intro a
        simp only [List.mem_append, List.mem_singleton, List.mem_cons]
        tauto
    · rw [if_neg hp, show collectOne pre acc m = acc by simp [collectOne, hp], ih]

theorem collectText_eq (pre : String) (t : String) (acc : List String) :
    collectText pre acc t =
      acc ++ dedupAux acc ((findTokens t).filter (fun id => goHasPrefixS id pre)) := by
  unfold collectText
  rw [collectOne_foldl]
  congr 1
  show dedupAux acc ((dedupAux [] (findTokens t)).filter _) = _
  rw [filter_dedupAux]
  exact dedupAux_dedupAux _ [] acc (fun a ha => absurd ha (List.not_mem_nil a))

theorem collectTexts_eq (pre : String) : ∀ (texts acc : List String),
    collectTexts pre acc texts =
      acc ++ dedupAux acc
        (((texts.map findTokens).flatten).filter (fun id => goHasPrefixS id pre)) := by
  intro texts
  induction texts with
  | nil => intro acc; simp [collectTexts, dedupAux]
  | cons t ts ih =>
    intro acc
    show collectTexts pre (collectText pre acc t) ts = _
    rw [ih, collectText_eq, List.map_cons, List.flatten_cons, List.filter_append,
      dedupAux_append, ← List.append_assoc]
    congr 1
    apply dedupAux_congr
    intro a
    simp only [List.mem_append, mem_dedupAux]
    tauto

theorem paginateLoop_ok_chain (env : ScanEnv) (dec : JValue → Except String (List String)) :
    ∀ (fuel : Nat) (url : String) (ts : List String),
      paginateLoop env dec fuel url = Except.ok ts →
      pageChainBad env dec fuel url = false := by
  intro fuel
  induction fuel with
  | zero => intro url ts _; rfl
  | succ fuel ih =>
    intro url ts h
    simp only [paginateLoop] at h
    simp only [pageChainBad]
    by_cases hu : url = ""
    · rw [if_pos hu]
    · rw [if_neg hu] at h
      rw [if_neg hu]
      rcases hnet : env.net url with _ | resp
      · rw [hnet] at h
      · rw [hnet] at h
        dsimp only at h ⊢
        by_cases hst : resp.status = 200
        · rw [if_pos hst] at h
          rw [if_pos hst]
          rcases hj : resp.jsonBody with _ | j
          · rw [hj] at h
          · rw [hj] at h
            dsimp only at h ⊢
            rcases hdec : dec j with e | texts
            · rw [hdec] at h
            · rw [hdec] at h
              dsimp only at h ⊢
              rcases hrec : paginateLoop env dec fuel (nextPageURL resp.linkHeader) with
                e | more
              · rw [hrec] at h
                exact Except.noConfusion h
              · exact ih _ _ hrec
        · rw [if_neg hst] at h
          exact Except.noConfusion h

theorem scanRemoteSources_ok {env : ScanEnv} {s : RepoScanner} {fuel : Nat} {pre : String}
    {gitTexts res : List String}
    (h : scanRemoteSources env s fuel pre gitTexts = Except.ok res) :
    ∃ ts1 ts2 ts3 ts4,
      paginate env decodePullsPage fuel (repoURL s "/pulls?state=all") = Except.ok ts1 ∧
      paginate env decodeIssuesPage fuel (repoURL s "/issues?state=all") = Except.ok ts2 ∧
      paginate env decodeCommentsPage fuel (repoURL s "/issues/comments") = Except.ok ts3 ∧
      paginate env decodeCommentsPage fuel (repoURL s "/pulls/comments") = Except.ok ts4 ∧
      res = collectTexts pre [] (gitTexts ++ ts1 ++ ts2 ++ ts3 ++ ts4) := by
  unfold scanRemoteSources at h
  rcases hp1 : paginate env decodePullsPage fuel (repoURL s "/pulls?state=all") with e1 | ts1 <;>
    rw [hp1] at h
  · cases h
  · rcases hp2 : paginate env decodeIssuesPage fuel (repoURL s "/issues?state=all") with
      e2 | ts2 <;> rw [hp2] at h
    · cases h
    · rcases hp3 : paginate env decodeCommentsPage fuel (repoURL s "/issues/comments") with
        e3 | ts3 <;> rw [hp3] at h
      · cases h
      · rcases hp4 : paginate env decodeCommentsPage fuel (repoURL s "/pulls/comments") with
          e4 | ts4 <;> rw [hp4] at h
        · cases h
        · injection h with h'
          exact ⟨ts1, ts2, ts3, ts4, rfl, rfl, rfl, rfl, h'.symm⟩

set_option maxRecDepth 10000 in
/-- C6.  A successful `ScanRepo` is exactly: the configured sources in
the fixed order — local git history only when a git directory is set
(and fatal on git failure), then pull requests, issues, issue comments,
review comments — each remote source walked page by page following the
Link `rel="next"` relation, the texts scanned with the identifier
grammar, filtered to the upper-cased team prefix and merged into one
first-seen-ordered deduplicated list; a success implies no page along
any source's chain had a non-OK status (so any non-OK page is fatal and
no partial list is returned); and the two-page example environment
yields both pages' identifiers in source order. -/
theorem scan_repo_spec (env : ScanEnv) (s : RepoScanner) (fuel : Nat) (teamKey : String) :
    (∀ res, ScanRepo env s fuel teamKey = Except.ok res →
      ∃ gitTexts ts1 ts2 ts3 ts4,
        ((s.gitDir = "" ∧ gitTexts = ([] : List String)) ∨
          (s.gitDir ≠ "" ∧ ∃ out, env.gitResult = Except.ok out ∧ gitTexts = [out])) ∧
        paginate env decodePullsPage fuel (repoURL s "/pulls?state=all") = Except.ok ts1 ∧
        paginate env decodeIssuesPage fuel (repoURL s "/issues?state=all") = Except.ok ts2 ∧
        paginate env decodeCommentsPage fuel (repoURL s "/issues/comments") = Except.ok ts3 ∧
        paginate env decodeCommentsPage fuel (repoURL s "/pulls/comments") = Except.ok ts4 ∧
        res = dedupAux []
          ((((gitTexts ++ ts1 ++ ts2 ++ ts3 ++ ts4).map findTokens).flatten).filter
            (fun id => goHasPrefixS id (goToUpper teamKey ++ "-")))) ∧
    (s.gitDir ≠ "" → ∀ e, env.gitResult = Except.error e →
      ScanRepo env s fuel teamKey = Except.error ("scan git log: git log: " ++ e)) ∧
    (∀ res, ScanRepo env s fuel teamKey = Except.ok res →
      pageChainBad env decodePullsPage fuel
          (withPerPage (repoURL s "/pulls?state=all")) = false ∧
        pageChainBad env decodeIssuesPage fuel
          (withPerPage (repoURL s "/issues?state=all")) = false ∧
        pageChainBad env decodeCommentsPage fuel
          (withPerPage (repoURL s "/issues/comments")) = false ∧
        pageChainBad env decodeCommentsPage fuel
          (withPerPage (repoURL s "/pulls/comments")) = false) ∧
    ScanRepo exampleEnv exampleScanner 5 "mir" =
      Except.ok ["MIR-10", "MIR-11", "MIR-1", "MIR-2"] := by
  have hok : ∀ res, ScanRepo env s fuel teamKey = Except.ok res →
      ∃ gitTexts, ((s.gitDir = "" ∧ gitTexts = ([] : List String)) ∨
          (s.gitDir ≠ "" ∧ ∃ out, env.gitResult = Except.ok out ∧ gitTexts = [out])) ∧
        scanRemoteSources env s fuel (goToUpper teamKey ++ "-") gitTexts = Except.ok res := by
    intro res hres
    unfold ScanRepo at hres
    by_cases hgit : s.gitDir = ""
    · rw [if_pos hgit] at hres
      exact ⟨[], Or.inl ⟨hgit, rfl⟩, hres⟩
    · rw [if_neg hgit] at hres
      rcases hgr : env.gitResult with eg | out <;> rw [hgr] at hres
      · cases hres
      · exact ⟨[out], Or.inr ⟨hgit, out, rfl, rfl⟩, hres⟩
  refine ⟨?_, ?_, ?_, by decide⟩
  · intro res hres
    obtain ⟨gitTexts, hg, hrem⟩ := hok res hres
    obtain ⟨ts1, ts2, ts3, ts4, hp1, hp2, hp3, hp4, heq⟩ := scanRemoteSources_ok hrem
    refine ⟨gitTexts, ts1, ts2, ts3, ts4, hg, hp1, hp2, hp3, hp4, ?_⟩
    rw [heq, collectTexts_eq, List.nil_append]
  · intro hgit e hge
    unfold ScanRepo
    rw [if_neg hgit, hge]
  · intro res hres
    obtain ⟨gitTexts, _, hrem⟩ := hok res hres
    obtain ⟨ts1, ts2, ts3, ts4, hp1, hp2, hp3, hp4, _⟩ := scanRemoteSources_ok hrem
    exact ⟨paginateLoop_ok_chain env decodePullsPage fuel _ ts1 hp1,
      paginateLoop_ok_chain env decodeIssuesPage fuel _ ts2 hp2,
      paginateLoop_ok_chain env decodeCommentsPage fuel _ ts3 hp3,
      paginateLoop_ok_chain env decodeCommentsPage fuel _ ts4 hp4⟩

set_option maxRecDepth 10000 in
/-- Witness for C6: in the two-page example a successful scan implies
every visited pull-request page (including the linked second page)
returned status 200. -/
theorem scan_repo_spec_witness :
    pageChainBad exampleEnv decodePullsPage 5
        (withPerPage (repoURL exampleScanner "/pulls?state=all")) = false ∧
      pageChainBad exampleEnv decodeIssuesPage 5
        (withPerPage (repoURL exampleScanner "/issues?state=all")) = false := by
  have h := (scan_repo_spec exampleEnv exampleScanner 5 "mir").2.2.1
    ["MIR-10", "MIR-11", "MIR-1", "MIR-2"] (by decide)
  exact ⟨h.1, h.2.1⟩

end LinearBridge
